import Mathlib

/-!
Verification of the rule-tree-to-example compiler and document assembler of
the `@evojs/http-postman-builder` package, as a shallow embedding in Lean.

The package has two parallel implementations of the compile pipeline:

* `src/collection-schema.ts` — free functions `parseQueryRule`, `parseQuery`,
  `parseLocation`, `parseRuleToJsonData`, `parseBody`, `buildItems`,
  `buildCollection`; embedded here in namespace `CS`.
* `src/index.ts` — class `HttpPostmanBuilder` with methods
  `_parseRuleToJsonc`, `_stringifyJsonc`, `_parseDescription`, `_parseQuery`,
  `_parseQueryRule`, `_parseLocation`, `_parseBody`, `addEndpoints`;
  embedded here in namespace `HB` (leading underscores dropped).

Modelling conventions, chosen to mirror the dynamic JavaScript semantics:

* JS strings are `List Char` (`Str`).
* JS numbers are modelled as `Int`.  Floating-point behaviour (non-integral
  literals, NaN/Infinity arithmetic, 2^53 rounding) is outside the model;
  `isFinite` string coercion is modelled on integer literals only.
* A JS runtime `TypeError` (property access on `undefined`/`null`) is
  modelled by `Except Unit`; code paths that cannot throw are total.
* `util.inspect(x, false, null, false)` is modelled by a structural dump
  that renders objects single-line in a fixed canonical field order
  (`type, default, values, integer, schema, nested, length`), matching the
  inspect output for flat objects; the line-width-driven line breaking of
  the real `util.inspect` is not modelled, so the subsequent
  `replace(/\n+ */g, ' ')` collapse is the identity here.
-/

namespace PB

/-- JS strings as character lists. -/
abbrev Str := List Char

/-- Shorthand embedding of a Lean string literal as a JS string. -/
def S (s : String) : Str := s.data

/-- The double-quote character. -/
def qC : Char := Char.ofNat 34

/-- The single-quote character. -/
def sqC : Char := Char.ofNat 39

/-- The backslash character. -/
def bsC : Char := Char.ofNat 92

/-- Plain JSON data: the type of rule `default`s and enumerated `values`.
Numbers are modelled as integers (see the file comment). -/
inductive Json where
  | null : Json
  | bool (b : Bool) : Json
  | num (n : Int) : Json
  | str (s : Str) : Json
  | arr (xs : List Json) : Json
  | obj (fs : List (Str × Json)) : Json

/-- The five rule `type` tags the compilers recognise.  A missing or
unrecognised `type` is `none` at the use sites (both fall into the same
`default:` switch branches everywhere in the source). -/
inductive RType where
  | string | number | boolean | object | array

instance : DecidableEq RType := fun a b => by
  cases a <;> cases b <;> first
    | exact .isTrue rfl
    | exact .isFalse (by intro h; exact RType.noConfusion h)

/-- A rule `default`: either plain JSON data or a function value (the code
checks `typeof rule.default !== 'function'` before using it). -/
inductive DefVal where
  | json (j : Json)
  | func

/-- A validation-rule position (`ValidationRule` in `@evojs/validator`):
either a single rule node or an ordered list of variants.  `prim` carries
every field the two source files read; each is `Option` because JS object
fields may be absent.  `schema` is one JS field that holds either an
object map (object rules) or a per-index rule list (array rules). -/
inductive VRule where
  | prim (ty : Option RType) (dflt : Option DefVal) (values : Option (List Json))
      (integer : Option Bool) (schema : Option (List (Str × VRule) ⊕ List VRule))
      (nested : Option VRule) (length : Option Int) : VRule
  | alts (rs : List VRule) : VRule

/-- JS property read `r.type`: on an array (variant list) the property is
`undefined`. -/
def VRule.vtype : VRule → Option RType
  | .prim ty _ _ _ _ _ _ => ty
  | .alts _ => none

/-- JS property read `r.default`. -/
def VRule.vdefault : VRule → Option DefVal
  | .prim _ d _ _ _ _ _ => d
  | .alts _ => none

/-- JS property read `r.values`. -/
def VRule.vvalues : VRule → Option (List Json)
  | .prim _ _ v _ _ _ _ => v
  | .alts _ => none

/-- JS property read `r.integer`. -/
def VRule.vinteger : VRule → Option Bool
  | .prim _ _ _ i _ _ _ => i
  | .alts _ => none

/-- JS property read `r.schema`. -/
def VRule.vschema : VRule → Option (List (Str × VRule) ⊕ List VRule)
  | .prim _ _ _ _ s _ _ => s
  | .alts _ => none

/-- JS property read `r.nested`. -/
def VRule.vnested : VRule → Option VRule
  | .prim _ _ _ _ _ n _ => n
  | .alts _ => none

/-- JS property read `r.length` (on a rule object; not array length). -/
def VRule.vlength : VRule → Option Int
  | .prim _ _ _ _ _ _ l => l
  | .alts _ => none

/-- `Array.isArray(r) ? r[0] : r` — the representative of a rule position;
`none` models the `undefined` produced by indexing an empty variant list. -/
def VRule.representative : VRule → Option VRule
  | .alts rs => rs.head?
  | r => some r

/-- JS truthiness of a JSON value (`0`, `""`, `false`, `null` are falsy). -/
def jsTruthy : Json → Bool
  | .null => false
  | .bool b => b
  | .num n => n != 0
  | .str s => s != []
  | .arr _ => true
  | .obj _ => true

/-- Decimal digits of a natural number, most significant first, via an
explicit fuel so that the definition is structural (kernel-reducible). -/
def natReprAux : Nat → Nat → Str → Str
  | 0, _, acc => acc
  | fuel + 1, n, acc =>
    let d : Char := Char.ofNat (48 + n % 10)
    if n < 10 then d :: acc else natReprAux fuel (n / 10) (d :: acc)

/-- Decimal representation of a natural number, e.g. `natRepr 42 = "42"`. -/
def natRepr (n : Nat) : Str := natReprAux (n + 1) n []

/-- JS `Number.prototype.toString` on the integers of the model. -/
def intRepr (n : Int) : Str :=
  if n < 0 then '-' :: natRepr n.natAbs else natRepr n.toNat

/-- JS string coercion of a JSON value (template interpolation and
`.toString()`): arrays join their elements with `,` rendering `null` holes
as empty, objects coerce to `[object Object]`. -/
def jsToStr : Json → Str
  | .null => S "null"
  | .bool b => if b then S "true" else S "false"
  | .num n => intRepr n
  | .str s => s
  | .arr xs => List.intercalate [','] (jsToStrElems xs)
  | .obj _ => S "[object Object]"
where
  /-- Element coercion for `Array.prototype.join`: `null` renders empty. -/
  jsToStrElems : List Json → List Str
  | [] => []
  | .null :: rest => [] :: jsToStrElems rest
  | j :: rest => jsToStr j :: jsToStrElems rest

/-- JS `isFinite` on a JSON value: numbers are finite in the integer model;
`null` and booleans coerce to finite numbers; a string is finite iff (after
trimming spaces) it is empty or an optionally-signed decimal integer
literal (the model does not cover float/hex literals); arrays of length
≤ 1 coerce through their sole element, other arrays and objects are NaN. -/
def jsIsFinite : Json → Bool
  | .null => true
  | .bool _ => true
  | .num _ => true
  | .str s =>
    let t := (s.dropWhile (· = ' ')).reverse.dropWhile (· = ' ') |>.reverse
    t = [] ||
      (let u := if t.head? = some '-' || t.head? = some '+' then t.tail else t
       u ≠ [] && u.all (·.isDigit))
  | .arr [] => true
  | .arr [j] => jsIsFinite j
  | .arr _ => false
  | .obj _ => false

/-- Compiled example data as produced by `CS.parseRuleToJsonData`
(`JsonData` in the source).  The extra constructor `rawRule` records the
one code path (array rules, indices beyond an explicit `schema` list) that
pushes the *uncompiled* `nested` rule node itself into the output array. -/
inductive JOut where
  | null : JOut
  | bool (b : Bool) : JOut
  | num (n : Int) : JOut
  | str (s : Str) : JOut
  | arr (xs : List JOut) : JOut
  | obj (fs : List (Str × JOut)) : JOut
  | rawRule (r : VRule) : JOut

/-- Injection of plain JSON data into compiled output (a `default` is
returned verbatim). -/
def jsonToJOut : Json → JOut
  | .null => .null
  | .bool b => .bool b
  | .num n => .num n
  | .str s => .str s
  | .arr xs => .arr (jsonToJOutL xs)
  | .obj fs => .obj (jsonToJOutF fs)
where
  jsonToJOutL : List Json → List JOut
  | [] => []
  | j :: rest => jsonToJOut j :: jsonToJOutL rest
  jsonToJOutF : List (Str × Json) → List (Str × JOut)
  | [] => []
  | (k, j) :: rest => (k, jsonToJOut j) :: jsonToJOutF rest

/-- A dynamically-typed JS value, the working type of the `index.ts`
annotated-JSON pipeline (`JsoncData` in the source).  A well-formed
`JsoncData` is a two-element array `[value, description?]`, but because a
rule `default` is spliced in verbatim, arbitrary shapes reach
`_stringifyJsonc`, which indexes into whatever it is given; `undef` models
the JS `undefined`. -/
inductive JSVal where
  | undef : JSVal
  | null : JSVal
  | bool (b : Bool) : JSVal
  | num (n : Int) : JSVal
  | str (s : Str) : JSVal
  | arr (xs : List JSVal) : JSVal
  | obj (fs : List (Str × JSVal)) : JSVal

/-- Injection of plain JSON data into the dynamic value universe. -/
def jsonToJSVal : Json → JSVal
  | .null => .null
  | .bool b => .bool b
  | .num n => .num n
  | .str s => .str s
  | .arr xs => .arr (jsonToJSValL xs)
  | .obj fs => .obj (jsonToJSValF fs)
where
  jsonToJSValL : List Json → List JSVal
  | [] => []
  | j :: rest => jsonToJSVal j :: jsonToJSValL rest
  jsonToJSValF : List (Str × Json) → List (Str × JSVal)
  | [] => []
  | (k, j) :: rest => (k, jsonToJSVal j) :: jsonToJSValF rest

/-- JS truthiness of a dynamic value. -/
def JSVal.truthy : JSVal → Bool
  | .undef => false
  | .null => false
  | .bool b => b
  | .num n => n != 0
  | .str s => s != []
  | .arr _ => true
  | .obj _ => true

/-- JS string coercion of a dynamic value (used for the `// ${comment}`
interpolation in `_stringifyJsonc`). -/
def JSVal.toStr : JSVal → Str
  | .undef => S "undefined"
  | .null => S "null"
  | .bool b => if b then S "true" else S "false"
  | .num n => intRepr n
  | .str s => s
  | .arr xs => List.intercalate [','] (toStrElems xs)
  | .obj _ => S "[object Object]"
where
  toStrElems : List JSVal → List Str
  | [] => []
  | .null :: rest => [] :: toStrElems rest
  | .undef :: rest => [] :: toStrElems rest
  | j :: rest => j.toStr :: toStrElems rest

/-- JS member indexing `v[i]` by a numeric index: throws (`Except.error`)
on `null`/`undefined`, reads an element (or `undefined`) from an array,
one character (as a string) from a string, the property named by the
decimal index from an object, and `undefined` from other primitives. -/
def jsIndex : JSVal → Nat → Except Unit JSVal
  | .undef, _ => .error ()
  | .null, _ => .error ()
  | .arr xs, i => .ok (xs.getD i .undef)
  | .str s, i => .ok (match s.get? i with | some c => .str [c] | none => .undef)
  | .obj fs, i =>
    .ok (match fs.find? (fun kv => kv.1 = natRepr i) with
         | some kv => kv.2 | none => .undef)
  | .bool _, _ => .ok .undef
  | .num _, _ => .ok (.undef)

/-! ## The `util.inspect` structural dump and `keyLength`

`keyLength(object)` counts the own enumerable properties whose value is
not `undefined`; for a rule node spread into a plain object these are its
present fields, and for a variant list (a JS array iterated with `for..in`)
they are its indices. -/

/-- `keyLength` applied to a rule position (spread semantics). -/
def keyLengthV : VRule → Nat
  | .prim ty d v i s n l =>
    (if ty.isSome then 1 else 0) + (if d.isSome then 1 else 0) +
    (if v.isSome then 1 else 0) + (if i.isSome then 1 else 0) +
    (if s.isSome then 1 else 0) + (if n.isSome then 1 else 0) +
    (if l.isSome then 1 else 0)
  | .alts rs => rs.length

/-- Is a string a plain JS identifier (rendered unquoted as an object key
by `util.inspect`)? -/
def identLike (s : Str) : Bool :=
  match s with
  | [] => false
  | c :: rest =>
    (c.isAlpha || c = '_' || c = '$') &&
      rest.all (fun d => d.isAlphanum || d = '_' || d = '$')

/-- An object key as `util.inspect` renders it: bare when identifier-like,
single-quoted otherwise. -/
def dumpKey (k : Str) : Str := if identLike k then k else sqC :: k ++ [sqC]

/-- Wrap rendered entries in `util.inspect`'s braces: the empty object is
the bare brace pair. -/
def wrapObj (entries : List Str) : Str :=
  match entries with
  | [] => ['{', '}']
  | es => '{' :: ' ' :: List.intercalate (S ", ") es ++ [' ', '}']

/-- Wrap rendered elements in `util.inspect`'s brackets. -/
def wrapArr (entries : List Str) : Str :=
  match entries with
  | [] => ['[', ']']
  | es => '[' :: ' ' :: List.intercalate (S ", ") es ++ [' ', ']']

/-- `util.inspect` rendering of plain JSON data (strings single-quoted,
quote escaping not modelled). -/
def dumpJson : Json → Str
  | .null => S "null"
  | .bool b => if b then S "true" else S "false"
  | .num n => intRepr n
  | .str s => sqC :: s ++ [sqC]
  | .arr xs => wrapArr (dumpJsonL xs)
  | .obj fs => wrapObj (dumpJsonF fs)
where
  dumpJsonL : List Json → List Str
  | [] => []
  | j :: rest => dumpJson j :: dumpJsonL rest
  dumpJsonF : List (Str × Json) → List Str
  | [] => []
  | (k, j) :: rest => (dumpKey k ++ ':' :: ' ' :: dumpJson j) :: dumpJsonF rest

/-- The literal text of a rule `type` tag. -/
def rtyStr : RType → Str
  | .string => S "string"
  | .number => S "number"
  | .boolean => S "boolean"
  | .object => S "object"
  | .array => S "array"

/-- `util.inspect` rendering of a rule `type` tag. -/
def dumpRTy (t : RType) : Str := sqC :: rtyStr t ++ [sqC]

/-- `util.inspect` rendering of a `default` field value. -/
def dumpDefVal : DefVal → Str
  | .json j => dumpJson j
  | .func => S "[Function (anonymous)]"

mutual

/-- `util.inspect(x, false, null, false)` on a rule position, in the
canonical field order of the model (see the file comment): fields whose
value is absent are omitted. -/
def dumpVRule : VRule → Str
  | .prim ty d v i s n l =>
    wrapObj
      ((match ty with | some t => [S "type: " ++ dumpRTy t] | none => []) ++
       (match d with | some dv => [S "default: " ++ dumpDefVal dv] | none => []) ++
       (match v with | some vs => [S "values: " ++ dumpJson (.arr vs)] | none => []) ++
       (match i with
        | some b => [S "integer: " ++ (if b then S "true" else S "false")]
        | none => []) ++
       (match s with
        | some (.inl fs) => [S "schema: " ++ wrapObj (dumpFieldMap fs)]
        | some (.inr xs) => [S "schema: " ++ wrapArr (dumpVList xs)]
        | none => []) ++
       (match n with | some nr => [S "nested: " ++ dumpVRule nr] | none => []) ++
       (match l with | some ln => [S "length: " ++ intRepr ln] | none => []))
  | .alts rs => wrapArr (dumpVList rs)

/-- Entries of an object-map `schema` as `util.inspect` renders them. -/
def dumpFieldMap : List (Str × VRule) → List Str
  | [] => []
  | (k, r) :: rest => (dumpKey k ++ ':' :: ' ' :: dumpVRule r) :: dumpFieldMap rest

/-- Elements of a rule list as `util.inspect` renders them. -/
def dumpVList : List VRule → List Str
  | [] => []
  | r :: rest => dumpVRule r :: dumpVList rest

end

/-- Index-keyed entries of `{...someArray}` as `util.inspect` renders
them (`'0': …, '1': …`). -/
def dumpIdxList (i : Nat) : List VRule → List Str
  | [] => []
  | r :: rest => (sqC :: natRepr i ++ sqC :: ':' :: ' ' :: dumpVRule r) :: dumpIdxList (i + 1) rest

/-- `util.inspect({...x}, false, null, false)` on a rule position: the
spread of a rule object renders as the object itself; the spread of a
variant list is an object keyed by the decimal indices. -/
def dumpSpread : VRule → Str
  | .prim ty d v i s n l => dumpVRule (.prim ty d v i s n l)
  | .alts rs => wrapObj (dumpIdxList 0 rs)

/-- `String.prototype.trim` (ASCII whitespace suffices for the dumps of
this model). -/
def jsTrim (s : Str) : Str :=
  ((s.dropWhile (fun c => c = ' ' || c = '\t' || c = '\n' || c = '\r')).reverse.dropWhile
    (fun c => c = ' ' || c = '\t' || c = '\n' || c = '\r')).reverse

/-- A query-parameter triple (`Query` in both source files). -/
structure Query where
  key : Str
  value : Str
  description : Option Str

/-- A path variable (`Variable` in both source files). -/
structure Variable where
  key : Str
  value : Str
  description : Option Str

namespace CS

/-- Embedding of `inspect` from `src/collection-schema.ts`: `undefined`
when the object has no defined fields, otherwise the structural dump with
newline runs collapsed (the dump of this model is single-line, so the
collapse is the identity; the `linebreaks` flag is therefore immaterial
here). -/
def inspect (v : VRule) : Option Str :=
  if keyLengthV v = 0 then none else some (dumpSpread v)

/-- Embedding of `parseQueryRule` from `src/collection-schema.ts`.  The
argument is the representative rule, which dynamically may be `undefined`
(`none`, covered by the `if (rule)` guard) or itself a variant list. -/
def parseQueryRule (rule : Option VRule) : Str :=
  match rule with
  | none => []
  | some r =>
    match r.vdefault with
    | some (.json (.str s)) => s
    | some (.json (.num n)) => intRepr n
    | some (.json (.bool b)) => if b then S "1" else S "0"
    | _ =>
      match r.vvalues with
      | some vs =>
        match vs.head? with
        | none => []
        | some .null => []
        | some j => jsToStr j
      | none =>
        match r.vtype with
        | some .string => []
        | some .number =>
          if (r.vinteger.getD false) then S "0" else S "0.0"
        | some .boolean => S "0"
        | _ => []

/-- Embedding of `parseQuery` from `src/collection-schema.ts`: one triple
per schema field in declared order; the value is computed from the
representative rule, the description from the whole rule position. -/
def parseQuery (query : Option (List (Str × VRule))) : List Query :=
  match query with
  | none => []
  | some q => q.map fun kv => ⟨kv.1, parseQueryRule kv.2.representative, inspect kv.2⟩

end CS

/-- `'\t'.repeat n`. -/
def tabs (n : Nat) : Str := List.replicate n '\t'

/-- `rule.length || 1` clamped to the iteration count of
`for (let i = 0, l = …; i < l; ++i)`: a missing or zero `length` yields 1,
a negative `length` runs zero iterations. -/
def jsLenOrOne : Option Int → Nat
  | none => 1
  | some L => if L = 0 then 1 else L.toNat

/-- `Object.entries` applied to a JS array: entries keyed by the decimal
indices. -/
def idxKeys (i : Nat) : List JOut → List (Str × JOut)
  | [] => []
  | x :: rest => (natRepr i, x) :: idxKeys (i + 1) rest

namespace CS

/-! ## The example compiler of `collection-schema.ts` -/

mutual

/-- Embedding of `parseRuleToJsonData` from `src/collection-schema.ts`.
The representative of a variant list is its first element
(`validationRule[0]`); reading `.default` off the `undefined` representative
of an empty variant list throws (`Except.error`), while a representative
that is itself an array reads `undefined` for every field and falls to the
`null` branch.  An explicit non-function `default` is returned verbatim.
Schema entries are compiled in declared order (`Object.entries` yields
distinct keys, so the spread-accumulate of the source is a plain map). -/
def parseRuleToJsonData : VRule → Except Unit JOut
  | .alts [] => .error ()
  | .alts (.alts _ :: _) => .ok .null
  | .alts (.prim ty d vs i s n l :: _) => parseRuleToJsonData (.prim ty d vs i s n l)
  | .prim ty d vs _ s n l =>
    match d with
    | some (.json j) => .ok (jsonToJOut j)
    | _ =>
      match ty with
      | some .string =>
        .ok (match vs with
             | some vlist =>
               match vlist.head? with
               | none => .str []
               | some jv => if jsTruthy jv then jsonToJOut jv else .str []
             | none => .str [])
      | some .number =>
        .ok (match vs with
             | some vlist =>
               match vlist.head? with
               | none => .num 0
               | some jv => if jsIsFinite jv then jsonToJOut jv else .num 0
             | none => .num 0)
      | some .boolean => .ok (.bool false)
      | some .object =>
        match s with
        | some (.inl fs) => do
          let compiled ← prjFields fs
          .ok (.obj compiled)
        | some (.inr xs) => do
          let compiled ← prjList xs
          .ok (.obj (idxKeys 0 compiled))
        | none => .ok (.obj [])
      | some .array =>
        match s with
        | some (.inr xs) => do
          let compiled ← prjList xs
          match n with
          | some nr =>
            let total := match l with
              | some L => if (xs.length : Int) < L then L.toNat else xs.length
              | none => xs.length
            .ok (.arr (compiled ++ List.replicate (total - xs.length) (.rawRule nr)))
          | none => .ok (.arr compiled)
        | some (.inl _) => .ok (.arr [])
        | none =>
          match n with
          | some nr => do
            let elem ← parseRuleToJsonData nr
            .ok (.arr (List.replicate (jsLenOrOne l) elem))
          | none => .ok (.arr [])
      | none => .ok .null

/-- Object-schema entries, compiled in declared order. -/
def prjFields : List (Str × VRule) → Except Unit (List (Str × JOut))
  | [] => .ok []
  | (k, r) :: rest => do
    let jv ← parseRuleToJsonData r
    let others ← prjFields rest
    .ok ((k, jv) :: others)

/-- Array-schema elements, compiled in index order. -/
def prjList : List VRule → Except Unit (List JOut)
  | [] => .ok []
  | r :: rest => do
    let jv ← parseRuleToJsonData r
    let others ← prjList rest
    .ok (jv :: others)

end

end CS

namespace HB

/-! ## The `HttpPostmanBuilder` pipeline of `src/index.ts`
(leading underscores of method names dropped). -/

/-- Embedding of `HttpPostmanBuilder._inspect`: `undefined` for an object
with no defined fields, else the collapsed and trimmed structural dump
(the collapse is the identity for the single-line dumps of this model). -/
def inspectHB (v : VRule) : Option Str :=
  if keyLengthV v = 0 then none else some (jsTrim (dumpSpread v))

/-- `_inspect` applied to the array of already-formatted variant strings:
spread into an index-keyed object and dumped. -/
def inspectStrs (ss : List Str) : Option Str :=
  if ss.length = 0 then none else some (jsTrim (wrapObj (idxStrEntries 0 ss)))
where
  idxStrEntries (i : Nat) : List Str → List Str
  | [] => []
  | s :: rest => (sqC :: natRepr i ++ sqC :: ':' :: ' ' :: sqC :: s ++ [sqC]) :: idxStrEntries (i + 1) rest

/-- `const { nested, schema, ...croppedData } = d`. -/
def crop : VRule → VRule
  | .prim ty d vs i _ _ l => .prim ty d vs i none none l
  | .alts rs => .alts rs

/-- `d.nested && !Array.isArray(d.nested) && d.nested.type !== 'object' &&
d.nested.type !== 'array'`. -/
def nestedPrimitive (d : VRule) : Bool :=
  match d.vnested with
  | some (.prim nty _ _ _ _ _ _) => nty ≠ some .object && nty ≠ some .array
  | some (.alts _) => false
  | none => false

/-- Embedding of `HttpPostmanBuilder._parseDescription`: variant lists keep
only object/array-typed variants, each formatted as-is when its `nested`
child is a primitive single rule and with `nested`/`schema` stripped
otherwise, and the surviving strings are dumped as one index-keyed object;
a single rule is formatted as-is under the same nested-primitive proviso. -/
def parseDescription (data : VRule) : Option Str :=
  match data with
  | .alts ds =>
    let rules := ds.filterMap fun d =>
      if d.vtype ≠ some .object ∧ d.vtype ≠ some .array then none
      else if nestedPrimitive d then inspectHB d
      else inspectHB (crop d)
    if rules.isEmpty then none else inspectStrs rules
  | .prim ty d vs i s n l =>
    if (ty ≠ some .object ∧ ty ≠ some .array) ∨ nestedPrimitive (.prim ty d vs i s n l)
    then inspectHB (.prim ty d vs i s n l)
    else inspectHB (crop (.prim ty d vs i s n l))

/-- A compiled description in its `JsoncData` slot (`out[1]`):
`undefined` when absent. -/
def descVal : Option Str → JSVal
  | some s => .str s
  | none => (.undef)

/-- `Array(rule.length || 1)`: a missing or zero `length` yields one slot;
a negative `length` makes the `Array` constructor throw a `RangeError`. -/
def jsArrayLen : Option Int → Except Unit Nat
  | none => .ok 1
  | some L => if L = 0 then .ok 1 else if L < 0 then .error () else .ok L.toNat

mutual

/-- The value slot (`out[0]`) of `HttpPostmanBuilder._parseRuleToJsonc`:
representative dispatch exactly as in the source — an explicit non-function
`default` verbatim, `false`/first-value/first-finite-value for the scalar
types, an array built from `nested` alone (only when `nested` is a
non-object
non-array single rule or is itself a variant list; `schema` is never
consulted for arrays here), and a mapping compiled from an object `schema`.
An empty variant list leaves the initial `null` (`if (rule)` guards it). -/
def jsoncValue : VRule → Except Unit JSVal
  | .alts [] => .ok .null
  | .alts (.alts _ :: _) => .ok .null
  | .alts (.prim ty d vs i s n l :: _) => jsoncValue (.prim ty d vs i s n l)
  | .prim ty d vs _ s n l =>
    match d with
    | some (.json j) => .ok (jsonToJSVal j)
    | _ =>
      match ty with
      | some .boolean => .ok (.bool false)
      | some .string =>
        .ok (match vs with
             | some vlist =>
               match vlist.head? with
               | none => .str []
               | some jv => if jsTruthy jv then jsonToJSVal jv else .str []
             | none => .str [])
      | some .number =>
        .ok (match vs with
             | some vlist =>
               match vlist.head? with
               | none => .num 0
               | some jv => if jsIsFinite jv then jsonToJSVal jv else .num 0
             | none => .num 0)
      | some .array =>
        match n with
        | some (.prim nty nd nvs ni ns nn nl) =>
          if nty ≠ some .array ∧ nty ≠ some .object then do
            let count ← jsArrayLen l
            let v ← jsoncValue (.prim nty nd nvs ni ns nn nl)
            .ok (.arr (List.replicate count
              (.arr [v, descVal (parseDescription (.prim nty nd nvs ni ns nn nl))])))
          else .ok (.arr [])
        | some (.alts nrs) => do
          let count ← jsArrayLen l
          let v ← jsoncValue (.alts nrs)
          .ok (.arr (List.replicate count
            (.arr [v, descVal (parseDescription (.alts nrs))])))
        | none => .ok (.arr [])
      | some .object =>
        match s with
        | some (.inl fs) => do
          let compiled ← jsoncFields fs
          .ok (.obj compiled)
        | some (.inr xs) => do
          let compiled ← jsoncIdxFields 0 xs
          .ok (.obj compiled)
        | none => .ok (.obj [])
      | none => .ok .null

/-- Object-schema entries compiled to annotated pairs, in declared order. -/
def jsoncFields : List (Str × VRule) → Except Unit (List (Str × JSVal))
  | [] => .ok []
  | (k, r) :: rest => do
    let v ← jsoncValue r
    let others ← jsoncFields rest
    .ok ((k, .arr [v, descVal (parseDescription r)]) :: others)

/-- An array used as an object `schema`: `Object.keys` yields the decimal
indices. -/
def jsoncIdxFields : Nat → List VRule → Except Unit (List (Str × JSVal))
  | _, [] => .ok []
  | i, r :: rest => do
    let v ← jsoncValue r
    let others ← jsoncIdxFields (i + 1) rest
    .ok ((natRepr i, .arr [v, descVal (parseDescription r)]) :: others)

end

/-- Embedding of `HttpPostmanBuilder._parseRuleToJsonc`: the two-slot
`JsoncData` array `[value, description]`. -/
def parseRuleToJsonc (v : VRule) : Except Unit JSVal := do
  let val ← jsoncValue v
  .ok (.arr [val, descVal (parseDescription v)])

/-- The `(last ? '' : ',')` separator followed by the
`data[1] ? ' // …\n' : '\n'` comment suffix of `_stringifyJsonc`. -/
def commentStr (c1 : JSVal) (last : Bool) : Str :=
  (if last then [] else [',']) ++
    (if c1.truthy then ' ' :: '/' :: '/' :: ' ' :: c1.toStr ++ ['\n'] else ['\n'])

/-- The property named by a decimal index, or `undefined`. -/
def propOr (fs : List (Str × JSVal)) (key : Str) : JSVal :=
  match fs.find? (fun kv => kv.1 = key) with
  | some kv => kv.2
  | none => .undef

mutual

/-- Embedding of `HttpPostmanBuilder._stringifyJsonc`.  The JS member reads
`data[0]`/`data[1]` are inlined as a case split on the dynamic shape of
`data` (see `jsIndex`): `null`/`undefined` throw, scalars index to
`undefined` (rendering as the empty string, the switch's fall-through), a
string indexes to its characters, an array to its slots and an object to
its decimal-named properties. -/
def stringifyJsonc : JSVal → Bool → Nat → Except Unit Str
  | .undef, _, _ => .error ()
  | .null, _, _ => .error ()
  | .bool _, _, _ => .ok []
  | .num _, _, _ => .ok []
  | .str [], _, _ => .ok []
  | .str (c :: rest), last, _ =>
    .ok (qC :: c :: qC ::
      commentStr (match rest.head? with | some c2 => .str [c2] | none => .undef) last)
  | .arr [], _, _ => .ok []
  | .arr (x :: rest), last, ind =>
    stringifyVal x (commentStr (rest.getD 0 .undef) last) ind
  | .obj fs, last, ind =>
    stringifyProp0 fs (commentStr (propOr fs (natRepr 1)) last) ind

/-- Walk to the property named `"0"`; a miss leaves the value `undefined`
(the empty rendering). -/
def stringifyProp0 : List (Str × JSVal) → Str → Nat → Except Unit Str
  | [], _, _ => .ok []
  | (k, v) :: rest, comment, ind =>
    if k = natRepr 0 then stringifyVal v comment ind else stringifyProp0 rest comment ind

/-- The switch of `_stringifyJsonc` on `typeof value`, with the comment
suffix already rendered.  `undefined` is the fall-through `return ''` (no
comment). -/
def stringifyVal : JSVal → Str → Nat → Except Unit Str
  | .undef, _, _ => .ok []
  | .null, comment, _ => .ok (S "null" ++ comment)
  | .bool b, comment, _ => .ok ((if b then S "true" else S "false") ++ comment)
  | .num n, comment, _ => .ok (intRepr n ++ comment)
  | .str s, comment, _ => .ok (qC :: s ++ qC :: comment)
  | .arr xs, comment, ind => do
    let parts ← stringifyElems xs (ind + 1)
    .ok ('[' :: '\n' :: parts ++ tabs ind ++ ']' :: comment)
  | .obj fs, comment, ind => do
    let parts ← stringifyMembers fs (ind + 1)
    .ok ('{' :: '\n' :: parts ++ tabs ind ++ '}' :: comment)

/-- Array elements, each on its own indented line; only the final one is
`last`. -/
def stringifyElems : List JSVal → Nat → Except Unit Str
  | [], _ => .ok []
  | [x], ind => do
    let s ← stringifyJsonc x true ind
    .ok (tabs ind ++ s)
  | x :: y :: rest, ind => do
    let s ← stringifyJsonc x false ind
    let t ← stringifyElems (y :: rest) ind
    .ok (tabs ind ++ s ++ t)

/-- Object entries, each on its own indented line as `"key": value`. -/
def stringifyMembers : List (Str × JSVal) → Nat → Except Unit Str
  | [], _ => .ok []
  | [(k, v)], ind => do
    let s ← stringifyJsonc v true ind
    .ok (tabs ind ++ qC :: k ++ qC :: ':' :: ' ' :: s)
  | (k, v) :: m :: rest, ind => do
    let s ← stringifyJsonc v false ind
    let t ← stringifyMembers (m :: rest) ind
    .ok (tabs ind ++ qC :: k ++ qC :: ':' :: ' ' :: s ++ t)

end

end HB

/-! ## Locations, URLs and the path-parameter regex -/

/-- `String.prototype.split` with a one-character separator. -/
def splitOnChar (sep : Char) : Str → List Str
  | [] => [[]]
  | c :: cs =>
    if c = sep then [] :: splitOnChar sep cs
    else
      match splitOnChar sep cs with
      | s :: rest => (c :: s) :: rest
      | [] => [[c]]

/-- First character of the identifier group `[a-z_$]` (flag `i`). -/
def identStart (c : Char) : Bool := c.isAlpha || c = '_' || c = '$'

/-- Subsequent identifier characters `[a-z0-9_$]` (flag `i`). -/
def identChar (c : Char) : Bool := c.isAlphanum || c = '_' || c = '$'

/-- What the regex metacharacter `.` matches in JS (no newline class). -/
def jsDot (c : Char) : Bool :=
  !(c = '\n' || c = '\r' || c.val = 0x2028 || c.val = 0x2029)

/-- The anchored match of `/^:([a-z_$][a-z0-9_$]*)(\(.*\))?$/i` against one
path segment, returning the captured parameter name.  The identifier run is
maximal (backtracking cannot shorten it, since the optional group must
start with an open parenthesis or be empty at the end of input). -/
def matchParam : Str → Option Str
  | ':' :: c :: cs =>
    if identStart c then
      let ident := c :: cs.takeWhile identChar
      let after := cs.dropWhile identChar
      if after = [] ∨
          (after.head? = some '(' ∧ after.getLast? = some ')' ∧ 2 ≤ after.length ∧
            ((after.drop 1).dropLast.all jsDot))
      then some ident
      else none
    else none
  | _ => none

/-- Rewrite one path segment: a parameter segment loses its parenthesised
constraint, all others pass through. -/
def rewriteSeg (s : Str) : Str :=
  match matchParam s with
  | some ident => ':' :: ident
  | none => s

/-- The literal `{{host}}`. -/
def hostStr : Str := S "\x7b\x7bhost\x7d\x7d"

/-- JS map read `m[key]` on a schema object, first binding wins. -/
def lookupKV (m : List (Str × VRule)) (k : Str) : Option VRule :=
  (m.find? (fun kv => kv.1 = k)).map (fun kv => kv.2)

/-- The record returned by `parseLocation`/`_parseLocation` (`vars` is the
source's `variable` field, a reserved word in Lean). -/
structure Location where
  folders : List Str
  url : Str
  host : List Str
  path : List Str
  vars : List Variable

/-- The shared body of `parseLocation` (collection-schema) and
`_parseLocation` (index), parameterised by the per-file variable
description function: split the template after the leading slash, take the
first `maxFolders` (unrewritten) segments as the folder prefix, rewrite
parameter segments, and emit one empty-valued variable per name in
`paramOrder`. -/
def parseLocationWith (descFn : Option VRule → Option Str) (path : Str)
    (param : List (Str × VRule)) (paramOrder : List Str) (maxFolders : Nat) : Location :=
  let paths := splitOnChar '/' (path.drop 1)
  let folders := paths.take maxFolders
  let joined := List.intercalate ['/'] (paths.map rewriteSeg)
  { folders := folders
    url := hostStr ++ '/' :: joined
    host := [hostStr]
    path := splitOnChar '/' joined
    vars := paramOrder.map fun key => ⟨key, [], descFn (lookupKV param key)⟩ }

/-! ## `JSON.stringify(x, null, '\t')` -/

/-- JSON string escaping of one character. -/
def escChar (c : Char) : Str :=
  if c = qC then [bsC, qC]
  else if c = bsC then [bsC, bsC]
  else if c = '\n' then [bsC, 'n']
  else if c = '\r' then [bsC, 'r']
  else if c = '\t' then [bsC, 't']
  else if c.val = 8 then [bsC, 'b']
  else if c.val = 12 then [bsC, 'f']
  else if c.val < 32 then
    bsC :: 'u' :: '0' :: '0' ::
      (Char.ofNat (if c.val / 16 < 10 then 48 + c.val / 16 else 87 + c.val / 16).toNat) ::
      [Char.ofNat (if c.val % 16 < 10 then 48 + c.val % 16 else 87 + c.val % 16).toNat]
  else [c]

/-- A JSON string literal. -/
def jsonQuote (s : Str) : Str := qC :: (s.map escChar).flatten ++ [qC]

/-- `JSON.stringify(j, null, '\t')` on plain JSON data, at nesting depth
`d`. -/
def jsonStrJ : Json → Nat → Str
  | .null, _ => S "null"
  | .bool b, _ => if b then S "true" else S "false"
  | .num n, _ => intRepr n
  | .str s, _ => jsonQuote s
  | .arr [], _ => ['[', ']']
  | .arr (x :: xs), d =>
    '[' :: '\n' :: List.intercalate (',' :: ['\n']) (jsonStrJL (x :: xs) (d + 1)) ++
      '\n' :: tabs d ++ [']']
  | .obj [], _ => ['{', '}']
  | .obj (f :: fs), d =>
    '{' :: '\n' :: List.intercalate (',' :: ['\n']) (jsonStrJF (f :: fs) (d + 1)) ++
      '\n' :: tabs d ++ ['}']
where
  jsonStrJL : List Json → Nat → List Str
  | [], _ => []
  | x :: rest, d => (tabs d ++ jsonStrJ x d) :: jsonStrJL rest d
  jsonStrJF : List (Str × Json) → Nat → List Str
  | [], _ => []
  | (k, x) :: rest, d => (tabs d ++ jsonQuote k ++ ':' :: ' ' :: jsonStrJ x d) :: jsonStrJF rest d

mutual

/-- `JSON.stringify(x, null, '\t')` on compiled output, at nesting depth
`d`.  The raw rule nodes that `parseRuleToJsonData` leaks into array slots
serialise as the plain objects they are (absent fields and function-valued
`default`s dropped, fields in the canonical order of the model). -/
def jstr : JOut → Nat → Str
  | .null, _ => S "null"
  | .bool b, _ => if b then S "true" else S "false"
  | .num n, _ => intRepr n
  | .str s, _ => jsonQuote s
  | .arr [], _ => ['[', ']']
  | .arr (x :: xs), d =>
    '[' :: '\n' :: List.intercalate (',' :: ['\n']) (jstrL (x :: xs) (d + 1)) ++
      '\n' :: tabs d ++ [']']
  | .obj [], _ => ['{', '}']
  | .obj (f :: fs), d =>
    '{' :: '\n' :: List.intercalate (',' :: ['\n']) (jstrF (f :: fs) (d + 1)) ++
      '\n' :: tabs d ++ ['}']
  | .rawRule r, d => jstrRule r d

def jstrL : List JOut → Nat → List Str
  | [], _ => []
  | x :: rest, d => (tabs d ++ jstr x d) :: jstrL rest d

def jstrF : List (Str × JOut) → Nat → List Str
  | [], _ => []
  | (k, x) :: rest, d => (tabs d ++ jsonQuote k ++ ':' :: ' ' :: jstr x d) :: jstrF rest d

/-- `JSON.stringify` of a rule node. -/
def jstrRule : VRule → Nat → Str
  | .prim ty dv vs i s n l, d =>
    let entries :=
      (match ty with
       | some t => [jsonQuote (S "type") ++ ':' :: ' ' :: jsonQuote (rtyStr t)]
       | none => []) ++
      (match dv with
       | some (.json j) => [jsonQuote (S "default") ++ ':' :: ' ' :: jsonStrJ j (d + 1)]
       | some .func => []
       | none => []) ++
      (match vs with
       | some vlist => [jsonQuote (S "values") ++ ':' :: ' ' :: jsonStrJ (.arr vlist) (d + 1)]
       | none => []) ++
      (match i with
       | some b => [jsonQuote (S "integer") ++ ':' :: ' ' :: (if b then S "true" else S "false")]
       | none => []) ++
      (match s with
       | some (.inl fs) =>
         [jsonQuote (S "schema") ++ ':' :: ' ' :: jstrRuleMap fs (d + 1)]
       | some (.inr xs) =>
         [jsonQuote (S "schema") ++ ':' :: ' ' :: jstrRuleList xs (d + 1)]
       | none => []) ++
      (match n with
       | some nr => [jsonQuote (S "nested") ++ ':' :: ' ' :: jstrRule nr (d + 1)]
       | none => []) ++
      (match l with
       | some ln => [jsonQuote (S "length") ++ ':' :: ' ' :: intRepr ln]
       | none => [])
    match entries with
    | [] => ['{', '}']
    | es =>
      '{' :: '\n' ::
        List.intercalate (',' :: ['\n']) (es.map (fun e => tabs (d + 1) ++ e)) ++
        '\n' :: tabs d ++ ['}']
  | .alts [], _ => ['[', ']']
  | .alts (r :: rs), d =>
    '[' :: '\n' ::
      List.intercalate (',' :: ['\n']) (jstrRuleElems (r :: rs) (d + 1)) ++
      '\n' :: tabs d ++ [']']

def jstrRuleMap : List (Str × VRule) → Nat → Str
  | [], _ => ['{', '}']
  | f :: fs, d =>
    '{' :: '\n' ::
      List.intercalate (',' :: ['\n']) (jstrRuleMapEntries (f :: fs) (d + 1)) ++
      '\n' :: tabs d ++ ['}']

def jstrRuleMapEntries : List (Str × VRule) → Nat → List Str
  | [], _ => []
  | (k, r) :: rest, d => (tabs d ++ jsonQuote k ++ ':' :: ' ' :: jstrRule r d) :: jstrRuleMapEntries rest d

def jstrRuleList : List VRule → Nat → Str
  | [], _ => ['[', ']']
  | x :: xs, d =>
    '[' :: '\n' ::
      List.intercalate (',' :: ['\n']) (jstrRuleElems (x :: xs) (d + 1)) ++
      '\n' :: tabs d ++ [']']

def jstrRuleElems : List VRule → Nat → List Str
  | [], _ => []
  | r :: rest, d => (tabs d ++ jstrRule r d) :: jstrRuleElems rest d

end

/-! ## Endpoints, request items and the folder tree -/

/-- HTTP methods (`HttpMethod`); `other` stands for the remaining verbs,
never listed in `['POST', 'PUT', 'PATCH', 'DELETE']`. -/
inductive Method where
  | GET | POST | PUT | PATCH | DELETE | other

/-- `['POST', 'PUT', 'PATCH', 'DELETE'].includes(method)`. -/
def Method.hasBody : Method → Bool
  | .POST | .PUT | .PATCH | .DELETE => true
  | _ => false

/-- Declared body encodings; an unrecognised or missing `bodyType` is
`none` (both hit the switch's default branch). -/
inductive BodyType where
  | json | multipart

/-- One `BuiltEndpoint`, carrying every field the two files read.
`bodyRule` is the `e.bodyRule` rule position read by
`collection-schema.ts`; `body` is the `e.body` schema map read by
`index.ts`. -/
structure Endpoint where
  path : Str
  method : Method
  param : List (Str × VRule)
  paramOrder : List Str
  query : Option (List (Str × VRule))
  bodyRule : Option VRule
  body : Option (List (Str × VRule))
  bodyType : Option BodyType

/-- The bearer `Auth` block (opaque to the claims: only its presence is
propagated). -/
structure Auth where
  token : Str

/-- One multipart form field: a file placeholder (whose `src` is the
constant `null`) or a text field. -/
inductive Formdata where
  | file (key : Str) (description : Option Str)
  | text (key : Str) (value : Str) (description : Option Str)

/-- A request body envelope. -/
inductive BodyEnv where
  | raw (s : Str)
  | formdata (fields : List Formdata)

/-- A `Content-Type`-style header entry. -/
structure Header where
  key : Str
  value : Str

/-- The `url` object of a request item. -/
structure UrlObj where
  raw : Str
  host : List Str
  path : List Str
  vars : List Variable
  query : List Query

/-- A leaf request item (the constant `response: []` is dropped). -/
structure Item where
  name : Str
  method : Method
  header : List Header
  body : Option BodyEnv
  url : UrlObj
  auth : Option Auth

/-- A node of the collection tree: a named folder or a leaf request. -/
inductive TreeItem where
  | folder (name : Str) (children : List TreeItem) : TreeItem
  | leaf (it : Item) : TreeItem

/-- The `name` property consulted by `item.find((fi) => fi.name === f)`:
folders and request items both carry one. -/
def TreeItem.nameOf : TreeItem → Str
  | .folder n _ => n
  | .leaf it => it.name

/-- One level of the insertion walk shared by `buildItems` and
`addEndpoints`: find the first sibling named `f`; descend into it when it
is a folder; otherwise (no match, or the first match is a leaf, whose
`item` property is `undefined`) append a fresh folder at the end and
descend into that. -/
def insertFolder (f : Str) (go : List TreeItem → List TreeItem) :
    List TreeItem → List TreeItem
  | [] => [.folder f (go [])]
  | x :: xs =>
    if x.nameOf = f then
      match x with
      | .folder n ch => .folder n (go ch) :: xs
      | .leaf l => .leaf l :: (xs ++ [.folder f (go [])])
    else x :: insertFolder f go xs

/-- Walk the folder prefix top-down, then append the request as a leaf of
the final folder (or of the root list when the prefix is empty). -/
def insertPath : List Str → Item → List TreeItem → List TreeItem
  | [], it => fun items => items ++ [.leaf it]
  | f :: fs, it => insertFolder f (insertPath fs it)

/-- `BuildCollectionOptions` after `buildCollection` applies its defaults
(`commentsInJson ??= true`, `maxFolders ??= 2`). -/
structure Options where
  commentsInJson : Bool
  maxFolders : Nat
  authorization : Option (Endpoint → Option Auth)

namespace CS

/-- Embedding of `parseLocation` from `src/collection-schema.ts`: the
variable descriptions go through the `keyLength`-gated `inspect` (a
missing parameter rule inspects `undefined`, which has no keys, hence no
description). -/
def parseLocation (path : Str) (param : List (Str × VRule)) (paramOrder : List Str)
    (maxFolders : Nat) : Location :=
  parseLocationWith
    (fun r => match r with | some rule => inspect rule | none => none)
    path param paramOrder maxFolders

/-- The `!Array.isArray(bodyRule) && bodyRule.type === 'object' &&
bodyRule.schema && !bodyRule.nested` target selection of `parseBody`'s
comment block: the inspected object is the raw `schema` in that case and
the whole rule position otherwise. -/
def bodyCommentTarget (br : VRule) : Option Str :=
  match br with
  | .prim (some .object) _ _ _ (some (.inl fs)) none _ =>
    if fs.length = 0 then none else some (wrapObj (dumpFieldMap fs))
  | .prim (some .object) _ _ _ (some (.inr xs)) none _ =>
    if xs.length = 0 then none else some (wrapObj (dumpIdxList 0 xs))
  | r => inspect r

/-- Embedding of `parseBody` from `src/collection-schema.ts`.  The `json`
case serialises the compiled example with `JSON.stringify(…, null, '\t')`
and, when comments are enabled, appends a `/* … */` block holding the
structural dump (an absent dump interpolates as the literal text
`undefined`).  The `multipart` case emits one form field per schema key:
a file placeholder for object-typed rules, a text field otherwise; reading
`.type` off the `undefined` representative of an empty variant list
throws. -/
def parseBody (bodyRule : Option VRule) (bodyType : Option BodyType)
    (commentsInJson : Bool) : Except Unit (Option (Str ⊕ List Formdata)) :=
  match bodyRule with
  | none => .ok none
  | some br =>
    match bodyType with
    | some .json => do
      let jd ← parseRuleToJsonData br
      let jsonData := jstr jd 0
      if commentsInJson then
        let insp := match bodyCommentTarget br with
          | some s => s
          | none => S "undefined"
        .ok (some (.inl (jsonData ++ '\n' :: '/' :: '*' :: '\n' :: insp ++ '\n' :: '*' :: ['/'])))
      else
        .ok (some (.inl jsonData))
    | some .multipart =>
      match br.representative with
      | none => .ok none
      | some rep =>
        if rep.vtype = some .object then
          match rep.vschema with
          | none => .ok none
          | some (.inl fs) => do
            let fields ← multipartFields fs
            .ok (some (.inr fields))
          | some (.inr xs) => do
            let fields ← multipartIdxFields 0 xs
            .ok (some (.inr fields))
        else .ok none
    | none => .ok none
where
  /-- One form field per schema entry, in declared order. -/
  multipartFields : List (Str × VRule) → Except Unit (List Formdata)
  | [] => .ok []
  | (k, r) :: rest => do
    let rep ← match r.representative with
      | none => Except.error ()
      | some rep => Except.ok rep
    let fd : Formdata :=
      if rep.vtype = some .object then .file k (inspect r)
      else .text k (parseQueryRule (some rep)) (inspect r)
    let others ← multipartFields rest
    .ok (fd :: others)
  /-- An array-shaped multipart schema walks its indices as keys. -/
  multipartIdxFields : Nat → List VRule → Except Unit (List Formdata)
  | _, [] => .ok []
  | i, r :: rest => do
    let rep ← match r.representative with
      | none => Except.error ()
      | some rep => Except.ok rep
    let fd : Formdata :=
      if rep.vtype = some .object then .file (natRepr i) (inspect r)
      else .text (natRepr i) (parseQueryRule (some rep)) (inspect r)
    let others ← multipartIdxFields (i + 1) rest
    .ok (fd :: others)

/-- The per-endpoint work of `buildItems`: location, query, body and the
assembled request item, returned with the folder prefix it is filed
under.  The `Content-Type: application/json` header is attached exactly
when the chosen body envelope is the raw-text one (`body?.mode ===
'raw'`); the body is attached only for `POST/PUT/PATCH/DELETE` and only
when `parseBody` produced something truthy (an empty string is falsy, an
empty form-field array is truthy). -/
def buildOne (e : Endpoint) (opts : Options) : Except Unit (List Str × Item) := do
  let location := parseLocation e.path e.param e.paramOrder opts.maxFolders
  let query := parseQuery e.query
  let bodyData ← parseBody e.bodyRule e.bodyType opts.commentsInJson
  let body : Option BodyEnv :=
    if e.method.hasBody then
      match bodyData with
      | some (.inl s) => if s = [] then none else some (.raw s)
      | some (.inr fd) => some (.formdata fd)
      | none => none
    else none
  let item : Item :=
    { name := location.url.drop (location.host.headD []).length
      method := e.method
      header := match body with
        | some (.raw _) => [⟨S "Content-Type", S "application/json"⟩]
        | _ => []
      body := body
      url := { raw := location.url, host := location.host, path := location.path,
               vars := location.vars, query := query }
      auth := match opts.authorization with
        | some f => f e
        | none => none }
  .ok (location.folders, item)

/-- Embedding of `buildItems` from `src/collection-schema.ts`: fold the
endpoints in order, inserting each assembled item along its folder
prefix. -/
def buildItemsAux (opts : Options) : List Endpoint → List TreeItem → Except Unit (List TreeItem)
  | [], acc => .ok acc
  | e :: rest, acc => do
    let (folders, item) ← buildOne e opts
    buildItemsAux opts rest (insertPath folders item acc)

/-- `buildItems(endpoints, options)` starting from the empty root list. -/
def buildItems (endpoints : List Endpoint) (opts : Options) : Except Unit (List TreeItem) :=
  buildItemsAux opts endpoints []

end CS

namespace HB

/-- Embedding of `_parseQueryRule` from `src/index.ts` (same logic as the
collection-schema `parseQueryRule`). -/
def parseQueryRule (rule : Option VRule) : Str :=
  match rule with
  | none => []
  | some r =>
    match r.vdefault with
    | some (.json (.str s)) => s
    | some (.json (.num n)) => intRepr n
    | some (.json (.bool b)) => if b then S "1" else S "0"
    | _ =>
      match r.vvalues with
      | some vs =>
        match vs.head? with
        | none => []
        | some .null => []
        | some j => jsToStr j
      | none =>
        match r.vtype with
        | some .string => []
        | some .number =>
          if (r.vinteger.getD false) then S "0" else S "0.0"
        | some .boolean => S "0"
        | _ => []

/-- Embedding of `_parseQuery` from `src/index.ts`: as the
collection-schema version, but the description goes through
`_parseDescription` instead of the bare `inspect`. -/
def parseQuery (query : Option (List (Str × VRule))) : List Query :=
  match query with
  | none => []
  | some q => q.map fun kv => ⟨kv.1, parseQueryRule kv.2.representative, parseDescription kv.2⟩

/-- Embedding of `_parseLocation` from `src/index.ts`: identical to the
collection-schema version except that the variable description calls
`util.inspect` unguarded — a missing parameter rule renders the literal
text `undefined`, and a rule position is inspected without the spread (a
variant list dumps as an array). -/
def parseLocation (path : Str) (param : List (Str × VRule)) (paramOrder : List Str) : Location :=
  parseLocationWith
    (fun r => match r with
      | some rule => some (jsTrim (dumpVRule rule))
      | none => some (S "undefined"))
    path param paramOrder 2

/-- Embedding of `_parseBody` from `src/index.ts`: the `json` case
compiles each top-level schema field with `_parseRuleToJsonc`, wraps the
mapping in a one-slot `JsoncData` (no root description) and serialises it
with `_stringifyJsonc`; the `multipart` case mirrors the
collection-schema one with `_parseDescription` descriptions. -/
def parseBody (body : Option (List (Str × VRule))) (bodyType : Option BodyType) :
    Except Unit (Option (Str ⊕ List Formdata)) :=
  match body with
  | none => .ok none
  | some b =>
    match bodyType with
    | some .json => do
      let fields ← jsoncFields b
      let s ← stringifyJsonc (.arr [.obj fields]) true 0
      .ok (some (.inl s))
    | some .multipart => do
      let fields ← multipartFieldsHB b
      .ok (some (.inr fields))
    | none => .ok none
where
  multipartFieldsHB : List (Str × VRule) → Except Unit (List Formdata)
  | [] => .ok []
  | (k, r) :: rest => do
    let rep ← match r.representative with
      | none => Except.error ()
      | some rep => Except.ok rep
    let fd : Formdata :=
      if rep.vtype = some .object then .file k (parseDescription r)
      else .text k (parseQueryRule (some rep)) (parseDescription r)
    let others ← multipartFieldsHB rest
    .ok (fd :: others)

/-- The per-endpoint work of `addEndpoints` in `src/index.ts`.  Unlike
`CS.buildOne`: the body data falls back to the literal `'{}'` when
`_parseBody` yields nothing (`|| '{}'`), so every
`POST/PUT/PATCH/DELETE` endpoint gets a body envelope, and the
`Content-Type: application/json` header is attached *unconditionally* —
for multipart bodies and bodiless requests alike. -/
def buildOne (e : Endpoint) (authorization : Option (Endpoint → Option Auth)) :
    Except Unit (List Str × Item) := do
  let location := parseLocation e.path e.param e.paramOrder
  let query := parseQuery e.query
  let pb ← parseBody e.body e.bodyType
  let bodyData : Str ⊕ List Formdata :=
    match pb with
    | none => .inl ['{', '}']
    | some (.inl s) => if s = [] then .inl ['{', '}'] else .inl s
    | some (.inr fd) => .inr fd
  let body : Option BodyEnv :=
    if e.method.hasBody then
      some (match bodyData with
            | .inl s => .raw s
            | .inr fd => .formdata fd)
    else none
  let item : Item :=
    { name := location.url.drop (location.host.headD []).length
      method := e.method
      header := [⟨S "Content-Type", S "application/json"⟩]
      body := body
      url := { raw := location.url, host := location.host, path := location.path,
               vars := location.vars, query := query }
      auth := match authorization with
        | some f => f e
        | none => none }
  .ok (location.folders, item)

/-- Embedding of the folder-walk-and-insert loop of `addEndpoints`,
folding into the builder's collection item list. -/
def addEndpointsAux (authorization : Option (Endpoint → Option Auth)) :
    List Endpoint → List TreeItem → Except Unit (List TreeItem)
  | [], acc => .ok acc
  | e :: rest, acc => do
    let (folders, item) ← buildOne e authorization
    addEndpointsAux authorization rest (insertPath folders item acc)

/-- `addEndpoints(endpoints)` on a builder whose collection starts empty. -/
def addEndpoints (endpoints : List Endpoint)
    (authorization : Option (Endpoint → Option Auth)) : Except Unit (List TreeItem) :=
  addEndpointsAux authorization endpoints []

end HB

/-! ## Concrete rules and endpoints used by witnesses and counterexamples -/

/-- A bare boolean rule. -/
def boolRule : VRule := .prim (some .boolean) none none none none none none

/-- A bare string rule. -/
def strRule : VRule := .prim (some .string) none none none none none none

/-- The integer-number query rule of the spec example. -/
def pageRule : VRule := .prim (some .number) none none (some true) none none none

/-- A string-typed rule with the explicit default `42`. -/
def def42Rule : VRule := .prim (some .string) (some (.json (.num 42))) none none none none none

/-! ## C1 — an explicit non-function default is returned verbatim -/

/-- C1: in both compilers, a rule position whose representative carries an
explicit `default` that is not a function compiles to exactly that default
value, whatever the declared type: `parseRuleToJsonData` returns it as the
whole result, and `_parseRuleToJsonc` places it verbatim in the value slot
of the annotated pair. -/
theorem c1_default_verbatim (r rep : VRule) (j : Json)
    (hrep : r.representative = some rep) (hd : rep.vdefault = some (.json j)) :
    CS.parseRuleToJsonData r = .ok (jsonToJOut j) ∧
    HB.parseRuleToJsonc r = .ok (.arr [jsonToJSVal j, HB.descVal (HB.parseDescription r)]) := by
  have hval : CS.parseRuleToJsonData r = .ok (jsonToJOut j) ∧
      HB.jsoncValue r = .ok (jsonToJSVal j) := by
    cases r with
    | prim ty d vs i s n l =>
      simp [VRule.representative] at hrep
      subst hrep
      simp [VRule.vdefault] at hd
      subst hd
      exact ⟨by simp [CS.parseRuleToJsonData], by simp [HB.jsoncValue]⟩
    | alts rs =>
      cases rs with
      | nil => simp [VRule.representative] at hrep
      | cons r0 tl =>
        simp [VRule.representative] at hrep
        subst hrep
        cases r0 with
        | alts rs' => simp [VRule.vdefault] at hd
        | prim ty d vs i s n l =>
          simp [VRule.vdefault] at hd
          subst hd
          exact ⟨by simp [CS.parseRuleToJsonData], by simp [HB.jsoncValue]⟩
  refine ⟨hval.1, ?_⟩
  unfold HB.parseRuleToJsonc
  rw [hval.2]
  rfl

/-- C1 witness: a string-typed rule with `default = 42` compiles to `42`
in both pipelines. -/
theorem c1_default_verbatim_witness :
    CS.parseRuleToJsonData def42Rule = .ok (.num 42) ∧
    HB.parseRuleToJsonc def42Rule =
      .ok (.arr [.num 42, HB.descVal (HB.parseDescription def42Rule)]) :=
  c1_default_verbatim def42Rule def42Rule (.num 42) rfl rfl

/-! ## C6 — compilation of malformed rules -/

/-- C6: compiling a rule position holding an *empty list of variants* is
the one malformed input on which the two compilers disagree with the
never-raise contract: `parseRuleToJsonData` reads `.default` off the
`undefined` representative and throws a `TypeError` (modelled
`Except.error`), while `_parseRuleToJsonc` (whose `if (rule)` guard covers
it) degrades to the documented `null`. -/
theorem c6_empty_variant_list :
    CS.parseRuleToJsonData (.alts []) = .error () ∧
    HB.parseRuleToJsonc (.alts []) = .ok (.arr [.null, .undef]) :=
  ⟨rfl, rfl⟩

/-! ## C9 — rendering of empty containers -/

/-- C9 counterexample: the annotated-JSON serializer renders the empty
sequence (at root, no description) as the four characters
`[`, newline, `]`, newline — not as the compact `[]` the claim states
(which with the root's newline suffix would be `[]` + newline). -/
theorem c9_counterexample :
    HB.stringifyJsonc (.arr [.arr [], .undef]) true 0 = .ok ['[', '\n', ']', '\n'] ∧
    (['[', '\n', ']', '\n'] : Str) ≠ ['[', ']', '\n'] := by
  exact ⟨rfl, by decide⟩

/-- C9 amended: an empty mapping or sequence value renders as the opening
bracket, a newline, one tab per indentation level, and the closing
bracket (followed by the usual comma/comment suffix) — the indentation
grows with the nesting level, so the form is not the compact two-character
one. -/
theorem c9_empty_containers (d : Option Str) (last : Bool) (ind : Nat) :
    HB.stringifyJsonc (.arr [.arr [], HB.descVal d]) last ind =
      .ok ('[' :: '\n' :: tabs ind ++ ']' :: HB.commentStr (HB.descVal d) last) ∧
    HB.stringifyJsonc (.arr [.obj [], HB.descVal d]) last ind =
      .ok ('{' :: '\n' :: tabs ind ++ '}' :: HB.commentStr (HB.descVal d) last) := by
  constructor <;> rfl

/-! ## Facts about `Except` binds and the list compilers -/

/-- Success of an `Except` bind decomposes into successes of its stages. -/
theorem bind_eq_ok {α β : Type} {x : Except Unit α} {f : α → Except Unit β} {b : β} :
    x >>= f = .ok b ↔ ∃ a, x = .ok a ∧ f a = .ok b := by
  cases x <;> simp [Bind.bind, Except.bind]

/-- `prjList` compiles lists pointwise: success yields one output per
input, each the compilation of the input at the same index. -/
theorem prjList_spec : ∀ {xs : List VRule} {ys : List JOut},
    CS.prjList xs = .ok ys →
    ys.length = xs.length ∧
      ∀ k, k < xs.length →
        CS.parseRuleToJsonData (xs.getD k (.alts [])) = .ok (ys.getD k .null) := by
  intro xs
  induction xs with
  | nil =>
    intro ys h
    simp [CS.prjList] at h
    subst h
    exact ⟨rfl, fun k hk => absurd hk (by simp)⟩
  | cons r rest ih =>
    intro ys h
    rw [CS.prjList] at h
    rw [bind_eq_ok] at h
    obtain ⟨jv, hjv, h⟩ := h
    rw [bind_eq_ok] at h
    obtain ⟨others, hothers, h⟩ := h
    simp at h
    subst h
    obtain ⟨hlen, hpt⟩ := ih hothers
    refine ⟨by simp [hlen], ?_⟩
    intro k hk
    cases k with
    | zero => simpa using hjv
    | succ k' =>
      rw [List.getD_cons_succ, List.getD_cons_succ]
      exact hpt k' (by simpa using hk)

/-! ## C2 — the length of a compiled array value -/

/-- The length law `parseRuleToJsonData` actually implements for array
rules: an explicit `schema` list fixes the length at `schema.length`,
except that a larger explicit `length` wins when `nested` is also present;
without `schema`, a present `nested` is repeated `length || 1` times (a
negative `length` runs the loop zero times); with neither, the array is
empty. -/
def csArrayLen (s : Option (List (Str × VRule) ⊕ List VRule)) (n : Option VRule)
    (l : Option Int) : Nat :=
  match s with
  | some (.inr xs) =>
    match n, l with
    | some _, some L => if (xs.length : Int) < L then L.toNat else xs.length
    | _, _ => xs.length
  | some (.inl _) => 0
  | none =>
    match n with
    | some _ => jsLenOrOne l
    | none => 0

/-- The length law `_parseRuleToJsonc` actually implements for array
rules: an explicit `schema` is ignored entirely; when `nested` is a
non-object non-array single rule, or is itself a variant list, the
compiled element is repeated `length || 1` times; any other `nested`
(including none) gives the empty array. -/
def hbArrayLen (n : Option VRule) (l : Option Int) : Nat :=
  match n with
  | some (.prim nty _ _ _ _ _ _) =>
    if nty ≠ some RType.array ∧ nty ≠ some RType.object then jsLenOrOne l else 0
  | some (.alts _) => jsLenOrOne l
  | none => 0

/-- C2 counterexample: an array rule with `schema = [boolean]` and
`length: 3` (no `nested`) compiles to a one-element array in
`parseRuleToJsonData` — the claim's "length equals the explicit `length`
whenever given" predicts three. -/
theorem c2_counterexample :
    CS.parseRuleToJsonData
        (.prim (some .array) none none none (some (.inr [boolRule])) none (some 3)) =
      .ok (.arr [.bool false]) ∧
    ([JOut.bool false] : List JOut).length ≠ 3 :=
  ⟨rfl, by decide⟩

/-- Case equation of `parseRuleToJsonData`: array type, no usable
default, explicit `schema` list and a `nested` rule. -/
theorem csArr_schema_nested (d : Option DefVal) (vs : Option (List Json)) (i : Option Bool)
    (xs : List VRule) (nr : VRule) (l : Option Int) (hd : d = none ∨ d = some .func) :
    CS.parseRuleToJsonData (.prim (some .array) d vs i (some (.inr xs)) (some nr) l) =
      (do
        let compiled ← CS.prjList xs
        Except.ok (JOut.arr (compiled ++
          List.replicate
            ((match l with
              | some L => if (xs.length : Int) < L then L.toNat else xs.length
              | none => xs.length) - xs.length)
            (.rawRule nr)))) := by
  rcases hd with hd | hd <;> subst hd <;> rfl

/-- Case equation: array type, no usable default, explicit `schema` list,
no `nested`. -/
theorem csArr_schema_only (d : Option DefVal) (vs : Option (List Json)) (i : Option Bool)
    (xs : List VRule) (l : Option Int) (hd : d = none ∨ d = some .func) :
    CS.parseRuleToJsonData (.prim (some .array) d vs i (some (.inr xs)) none l) =
      (do
        let compiled ← CS.prjList xs
        Except.ok (JOut.arr compiled)) := by
  rcases hd with hd | hd <;> subst hd <;> rfl

/-- Case equation: array type with an object-map `schema` (its `.length`
is `undefined`, so the loop never runs). -/
theorem csArr_objSchema (d : Option DefVal) (vs : Option (List Json)) (i : Option Bool)
    (fs : List (Str × VRule)) (n : Option VRule) (l : Option Int)
    (hd : d = none ∨ d = some .func) :
    CS.parseRuleToJsonData (.prim (some .array) d vs i (some (.inl fs)) n l) =
      .ok (.arr []) := by
  rcases hd with hd | hd <;> subst hd <;> cases n <;> rfl

/-- Case equation: array type, no `schema`, a `nested` rule repeated
`length || 1` times. -/
theorem csArr_nested_only (d : Option DefVal) (vs : Option (List Json)) (i : Option Bool)
    (nr : VRule) (l : Option Int) (hd : d = none ∨ d = some .func) :
    CS.parseRuleToJsonData (.prim (some .array) d vs i none (some nr) l) =
      (do
        let elem ← CS.parseRuleToJsonData nr
        Except.ok (JOut.arr (List.replicate (jsLenOrOne l) elem))) := by
  rcases hd with hd | hd <;> subst hd <;> rfl

/-- Case equation: array type with neither `schema` nor `nested`. -/
theorem csArr_bare (d : Option DefVal) (vs : Option (List Json)) (i : Option Bool)
    (l : Option Int) (hd : d = none ∨ d = some .func) :
    CS.parseRuleToJsonData (.prim (some .array) d vs i none none l) = .ok (.arr []) := by
  rcases hd with hd | hd <;> subst hd <;> rfl

/-- Case equations of `_parseRuleToJsonc`'s value slot for array rules. -/
theorem hbArr_nested_prim (d : Option DefVal) (vs : Option (List Json)) (i : Option Bool)
    (s : Option (List (Str × VRule) ⊕ List VRule))
    (nty : Option RType) (nd : Option DefVal) (nvs : Option (List Json)) (ni : Option Bool)
    (ns : Option (List (Str × VRule) ⊕ List VRule)) (nn : Option VRule) (nl : Option Int)
    (l : Option Int) (hd : d = none ∨ d = some .func) :
    HB.jsoncValue (.prim (some .array) d vs i s
        (some (.prim nty nd nvs ni ns nn nl)) l) =
      (if nty ≠ some RType.array ∧ nty ≠ some RType.object then do
        let count ← HB.jsArrayLen l
        let v ← HB.jsoncValue (.prim nty nd nvs ni ns nn nl)
        Except.ok (JSVal.arr (List.replicate count
          (.arr [v, HB.descVal (HB.parseDescription (.prim nty nd nvs ni ns nn nl))])))
      else .ok (.arr [])) := by
  rcases hd with hd | hd <;> subst hd <;> rfl

/-- Case equation: `nested` is itself a variant list
(`Array.isArray(rule.nested)`). -/
theorem hbArr_nested_alts (d : Option DefVal) (vs : Option (List Json)) (i : Option Bool)
    (s : Option (List (Str × VRule) ⊕ List VRule)) (nrs : List VRule) (l : Option Int)
    (hd : d = none ∨ d = some .func) :
    HB.jsoncValue (.prim (some .array) d vs i s (some (.alts nrs)) l) =
      (do
        let count ← HB.jsArrayLen l
        let v ← HB.jsoncValue (.alts nrs)
        Except.ok (JSVal.arr (List.replicate count
          (.arr [v, HB.descVal (HB.parseDescription (.alts nrs))])))) := by
  rcases hd with hd | hd <;> subst hd <;> rfl

/-- Case equation: no `nested` at all. -/
theorem hbArr_no_nested (d : Option DefVal) (vs : Option (List Json)) (i : Option Bool)
    (s : Option (List (Str × VRule) ⊕ List VRule)) (l : Option Int)
    (hd : d = none ∨ d = some .func) :
    HB.jsoncValue (.prim (some .array) d vs i s none l) = .ok (.arr []) := by
  rcases hd with hd | hd <;> subst hd <;> rfl

/-- A successful `Array(length || 1)` call yields `jsLenOrOne length`
slots. -/
theorem jsArrayLen_ok {l : Option Int} {c : Nat} (hc : HB.jsArrayLen l = .ok c) :
    c = jsLenOrOne l := by
  match l with
  | none => simpa [HB.jsArrayLen, jsLenOrOne] using hc.symm
  | some L =>
    by_cases h0 : L = 0
    · subst h0; simpa [HB.jsArrayLen, jsLenOrOne] using hc.symm
    · by_cases hneg : L < 0
      · simp [HB.jsArrayLen, h0, hneg] at hc
      · simp [HB.jsArrayLen, h0, hneg] at hc
        simp [jsLenOrOne, h0, ← hc]

/-- C2 amended: for an array rule without a usable default,
`parseRuleToJsonData` gives length `csArrayLen schema nested length`
(explicit `length` only wins when `nested` is present and `length`
exceeds the `schema` list), `_parseRuleToJsonc` gives
`hbArrayLen nested length` (`schema` never consulted), and the claim's
example — boolean `nested` with `length: 3` — still compiles to
`[false, false, false]` in both. -/
theorem c2_array_length
    (d : Option DefVal) (vs : Option (List Json)) (i : Option Bool)
    (s : Option (List (Str × VRule) ⊕ List VRule)) (n : Option VRule) (l : Option Int)
    (hd : d = none ∨ d = some .func) :
    (∀ out, CS.parseRuleToJsonData (.prim (some .array) d vs i s n l) = .ok (.arr out) →
      out.length = csArrayLen s n l) ∧
    (∀ out, HB.jsoncValue (.prim (some .array) d vs i s n l) = .ok (.arr out) →
      out.length = hbArrayLen n l) ∧
    CS.parseRuleToJsonData (.prim (some .array) none none none none (some boolRule) (some 3)) =
      .ok (.arr [.bool false, .bool false, .bool false]) ∧
    (∃ pair, HB.jsoncValue (.prim (some .array) none none none none (some boolRule) (some 3)) =
      .ok (.arr [pair, pair, pair])) := by
  refine ⟨?_, ?_, rfl, ⟨_, rfl⟩⟩
  · intro out h
    rcases s with _ | (fs | xs)
    · rcases n with _ | nr
      · rw [csArr_bare d vs i l hd] at h
        simp at h
        simp [csArrayLen, ← h]
      · rw [csArr_nested_only d vs i nr l hd] at h
        rw [bind_eq_ok] at h
        obtain ⟨elem, he, h⟩ := h
        simp at h
        simp [csArrayLen, ← h]
    · rcases n with _ | nr <;>
        [rw [csArr_objSchema d vs i fs none l hd] at h;
         rw [csArr_objSchema d vs i fs (some nr) l hd] at h] <;>
      · simp at h
        simp [csArrayLen, ← h]
    · rcases n with _ | nr
      · rw [csArr_schema_only d vs i xs l hd] at h
        rw [bind_eq_ok] at h
        obtain ⟨compiled, hc, h⟩ := h
        simp at h
        simp [csArrayLen, ← h, (prjList_spec hc).1]
      · rw [csArr_schema_nested d vs i xs nr l hd] at h
        rw [bind_eq_ok] at h
        obtain ⟨compiled, hc, h⟩ := h
        simp at h
        rw [← h]
        have hlen := (prjList_spec hc).1
        rcases l with _ | L
        · simp [csArrayLen, hlen]
        · by_cases hlt : (xs.length : Int) < L
          · simp [csArrayLen, hlen, hlt]
            omega
          · simp [csArrayLen, hlen, hlt]
  · intro out h
    rcases n with _ | (⟨nty, nd, nvs, ni, ns, nn, nl⟩ | nrs)
    · rw [hbArr_no_nested d vs i s l hd] at h
      simp at h
      simp [hbArrayLen, ← h]
    · rw [hbArr_nested_prim d vs i s nty nd nvs ni ns nn nl l hd] at h
      by_cases hty : nty ≠ some RType.array ∧ nty ≠ some RType.object
      · rw [if_pos hty] at h
        rw [bind_eq_ok] at h
        obtain ⟨count, hcnt, h⟩ := h
        rw [bind_eq_ok] at h
        obtain ⟨v, hv, h⟩ := h
        simp at h
        simp [hbArrayLen, hty, ← h, jsArrayLen_ok hcnt]
      · rw [if_neg hty] at h
        simp at h
        subst h
        simp [hbArrayLen]
        rw [if_neg hty]
    · rw [hbArr_nested_alts d vs i s nrs l hd] at h
      rw [bind_eq_ok] at h
      obtain ⟨count, hcnt, h⟩ := h
      rw [bind_eq_ok] at h
      obtain ⟨v, hv, h⟩ := h
      simp at h
      simp [hbArrayLen, ← h, jsArrayLen_ok hcnt]

/-- Pointwise content of an array compiled from a `schema` prefix and a
replicated raw filler. -/
theorem schema_filler_content {xs : List VRule} {compiled out : List JOut} (M : Nat)
    (nr : VRule) (h : compiled ++ List.replicate M (JOut.rawRule nr) = out)
    (hlen : compiled.length = xs.length)
    (hpt : ∀ k, k < xs.length →
      CS.parseRuleToJsonData (xs.getD k (.alts [])) = .ok (compiled.getD k .null)) :
    (∀ k, k < xs.length →
      CS.parseRuleToJsonData (xs.getD k (.alts [])) = .ok (out.getD k .null)) ∧
    (∀ k, xs.length ≤ k → k < out.length → out.getD k .null = .rawRule nr) := by
  constructor
  · intro k hk
    rw [← h]
    rw [List.getD_append _ _ _ _ (by omega)]
    exact hpt k hk
  · intro k hk1 hk2
    rw [← h] at hk2 ⊢
    rw [List.length_append, List.length_replicate] at hk2
    rw [List.getD_append_right _ _ _ _ (by omega)]
    have hk3 : k - compiled.length < M := by omega
    simp [List.getD, List.getElem?_replicate, hk3]

/-- C3: for an array rule without a usable default carrying both a
per-index `schema` list and a `nested` rule, every compiled index below
the `schema` list's length is the compilation of the rule at that index,
and every index at or beyond it (reachable when the declared `length`
exceeds the list) holds the raw, uncompiled `nested` node itself. -/
theorem c3_raw_nested_filler (d : Option DefVal) (vs : Option (List Json)) (i : Option Bool)
    (xs : List VRule) (nr : VRule) (l : Option Int)
    (hd : d = none ∨ d = some .func) (out : List JOut)
    (h : CS.parseRuleToJsonData (.prim (some .array) d vs i (some (.inr xs)) (some nr) l) =
      .ok (.arr out)) :
    (∀ k, k < xs.length →
      CS.parseRuleToJsonData (xs.getD k (.alts [])) = .ok (out.getD k .null)) ∧
    (∀ k, xs.length ≤ k → k < out.length → out.getD k .null = .rawRule nr) := by
  rw [csArr_schema_nested d vs i xs nr l hd] at h
  rw [bind_eq_ok] at h
  obtain ⟨compiled, hc, h⟩ := h
  simp at h
  obtain ⟨hlen, hpt⟩ := prjList_spec hc
  exact schema_filler_content _ nr h hlen hpt

/-- C3 witness: `schema = [boolean]`, `nested` a string rule,
`length: 3` — index 0 compiles the boolean schema entry, indices 1 and 2
hold the raw string rule node. -/
theorem c3_raw_nested_filler_witness :
    CS.parseRuleToJsonData (([boolRule] : List VRule).getD 0 (.alts [])) =
      .ok (([JOut.bool false, .rawRule strRule, .rawRule strRule]).getD 0 .null) ∧
    ([JOut.bool false, .rawRule strRule, .rawRule strRule]).getD 2 .null = .rawRule strRule :=
  ⟨(c3_raw_nested_filler none none none [boolRule] strRule (some 3)
      (Or.inl rfl) [JOut.bool false, .rawRule strRule, .rawRule strRule] rfl).1 0 (by decide),
   (c3_raw_nested_filler none none none [boolRule] strRule (some 3)
      (Or.inl rfl) [JOut.bool false, .rawRule strRule, .rawRule strRule] rfl).2 2
      (by decide) (by decide)⟩

/-- C2 witness: the amended length laws applied at the claim's own
example (boolean `nested`, `length: 3`), where both compilers produce the
three-element array. -/
theorem c2_array_length_witness :
    (∀ out, CS.parseRuleToJsonData
        (.prim (some .array) none none none none (some boolRule) (some 3)) = .ok (.arr out) →
      out.length = csArrayLen none (some boolRule) (some 3)) ∧
    csArrayLen none (some boolRule) (some 3) = 3 :=
  ⟨fun out h => ((c2_array_length none none none none (some boolRule) (some 3)
      (Or.inl rfl)).1 out h), by decide⟩

/-! ## C7 — query-parameter compilation -/

/-- The claim's first clause: a scalar (string/number/boolean) `default`. -/
def scalarDefault (r : VRule) : Option Json :=
  match r.vdefault with
  | some (.json (.str s)) => some (.str s)
  | some (.json (.num n)) => some (.num n)
  | some (.json (.bool b)) => some (.bool b)
  | _ => none

/-- The claim's stringification of a scalar default: booleans map to
`"1"`/`"0"`, others stringify. -/
def stringifyScalar : Json → Str
  | .bool b => if b then S "1" else S "0"
  | j => jsToStr j

/-- The claim's "first enumerated value stringified", with the JS
stringification conventions of the source (`values[0]?.toString() || ''`:
a missing or `null` first value gives the empty string). -/
def stringifyEnum : Option Json → Str
  | none => []
  | some .null => []
  | some j => jsToStr j

/-- The claim's type table: string to `""`, integer number to `"0"`,
non-integer number to `"0.0"`, boolean to `"0"`, other to `""`. -/
def typeDefault (r : VRule) : Str :=
  match r.vtype with
  | some .string => []
  | some .number => if r.vinteger.getD false then S "0" else S "0.0"
  | some .boolean => S "0"
  | _ => []

/-- The query value law as the claim words it: scalar default first, else
the first enumerated value when `values` is given, else by declared
type. -/
def queryValueSpec : Option VRule → Str
  | none => []
  | some r =>
    match scalarDefault r with
    | some j => stringifyScalar j
    | none =>
      match r.vvalues with
      | some vs => stringifyEnum vs.head?
      | none => typeDefault r

/-- The implemented `parseQueryRule` refines the claim's value law. -/
theorem parseQueryRule_eq_spec (r : Option VRule) :
    CS.parseQueryRule r = queryValueSpec r := by
  rcases r with _ | rule
  · rfl
  · rcases rule with ⟨ty, d, vs, i, s, n, l⟩ | rs
    · rcases d with _ | dv
      · rfl
      · rcases dv with j | _
        · rcases j with _ | b | n' | s' | xs' | fs' <;> rfl
        · rfl
    · rfl

/-- C7 counterexample: the rule `{page: {type: "number", integer: true}}`
with no default or values compiles with a *present* description — the
structural dump of the rule — where the claim states the description is
absent. -/
theorem c7_counterexample :
    (CS.parseQuery (some [(S "page", pageRule)])).map (fun q => q.description) =
      [some (dumpSpread pageRule)] ∧
    (some (dumpSpread pageRule) : Option Str) ≠ none :=
  ⟨rfl, by simp⟩

/-- C7 amended: query compilation emits one `{key, value, description}`
triple per field in declared order; the value follows exactly the claim's
stringification law (scalar default with boolean mapped to `"1"`/`"0"`,
else first enumerated value, else the type table); the description is the
structural dump of the field's rule — present for every rule with at
least one defined field, so in particular the `page` example carries its
dump rather than no description, while its value is `"0"` as claimed. -/
theorem c7_query_compilation (q : List (Str × VRule)) :
    CS.parseQuery (some q) =
      q.map (fun kv => ⟨kv.1, queryValueSpec kv.2.representative, CS.inspect kv.2⟩) ∧
    (∀ r : Option VRule, CS.parseQueryRule r = queryValueSpec r) ∧
    CS.parseQuery (some [(S "page", pageRule)]) =
      [⟨S "page", S "0", some (dumpSpread pageRule)⟩] := by
  refine ⟨?_, parseQueryRule_eq_spec, rfl⟩
  simp only [CS.parseQuery, parseQueryRule_eq_spec]

/-! ## C10 — request-item names versus folder names -/

/-- No segment produced by `split` contains the separator. -/
theorem splitOnChar_no_sep (sep : Char) :
    ∀ (s : Str) (f : Str), f ∈ splitOnChar sep s → sep ∉ f := by
  intro s
  induction s with
  | nil =>
    intro f hf
    simp [splitOnChar] at hf
    subst hf
    simp
  | cons c cs ih =>
    intro f hf
    by_cases hc : c = sep
    · rw [splitOnChar, if_pos hc] at hf
      rcases List.mem_cons.mp hf with hf | hf
      · subst hf; simp
      · exact ih f hf
    · rw [splitOnChar, if_neg hc] at hf
      cases hsplit : splitOnChar sep cs with
      | nil =>
        rw [hsplit] at hf
        simp at hf
        subst hf
        simp
        exact fun h => hc h.symm
      | cons s0 rest =>
        rw [hsplit] at hf
        rcases List.mem_cons.mp hf with hf | hf
        · subst hf
          have hs0 := ih s0 (by rw [hsplit]; exact List.mem_cons_self _ _)
          simp
          exact ⟨fun h => hc h.symm, hs0⟩
        · exact ih f (by rw [hsplit]; exact List.mem_cons_of_mem _ hf)

/-- The name/folder facts of any location record: stripping the host
prefix from the URL leaves the slash-led rewritten path, and no folder
segment contains a slash. -/
theorem parseLocationWith_name (descFn : Option VRule → Option Str) (path : Str)
    (param : List (Str × VRule)) (paramOrder : List Str) (maxF : Nat) :
    (parseLocationWith descFn path param paramOrder maxF).url.drop
        ((parseLocationWith descFn path param paramOrder maxF).host.head?.getD []).length =
      '/' :: List.intercalate ['/'] ((splitOnChar '/' (path.drop 1)).map rewriteSeg) ∧
    ∀ f ∈ (parseLocationWith descFn path param paramOrder maxF).folders, '/' ∉ f := by
  constructor
  · show (hostStr ++ '/' :: _).drop (hostStr.length) = _
    exact List.drop_left _ _
  · intro f hf
    exact splitOnChar_no_sep '/' _ f (List.mem_of_mem_take hf)

/-- C10: in both assemblers, the generated request item's name is the
normalized URL with the `{{host}}` prefix removed — a leading `/`
followed by the rewritten path segments joined by `/` — so it begins with
`/`, and no folder segment (which never contains a `/`) can equal it. -/
theorem c10_item_names (e : Endpoint) (opts : Options) :
    (∀ folders item, CS.buildOne e opts = .ok (folders, item) →
      item.name = '/' :: List.intercalate ['/']
          ((splitOnChar '/' (e.path.drop 1)).map rewriteSeg) ∧
        item.name.head? = some '/' ∧ ∀ f ∈ folders, f ≠ item.name) ∧
    (∀ auth folders item, HB.buildOne e auth = .ok (folders, item) →
      item.name = '/' :: List.intercalate ['/']
          ((splitOnChar '/' (e.path.drop 1)).map rewriteSeg) ∧
        item.name.head? = some '/' ∧ ∀ f ∈ folders, f ≠ item.name) := by
  constructor
  · intro folders item h
    unfold CS.buildOne CS.parseLocation at h
    rw [bind_eq_ok] at h
    obtain ⟨bodyData, hbd, h⟩ := h
    simp at h
    obtain ⟨hfol, hitem⟩ := h
    have hloc := parseLocationWith_name
      (fun r => match r with | some rule => CS.inspect rule | none => none)
      e.path e.param e.paramOrder opts.maxFolders
    have hname : item.name = '/' :: List.intercalate ['/']
        ((splitOnChar '/' (e.path.drop 1)).map rewriteSeg) := by
      rw [← hitem]
      exact hloc.1
    refine ⟨hname, by rw [hname]; rfl, ?_⟩
    intro f hf heq
    have hns : '/' ∉ f := by
      refine hloc.2 f ?_
      rw [hfol]
      exact hf
    rw [heq, hname] at hns
    exact hns (List.mem_cons_self _ _)
  · intro auth folders item h
    unfold HB.buildOne HB.parseLocation at h
    rw [bind_eq_ok] at h
    obtain ⟨pb, hpb, h⟩ := h
    simp at h
    obtain ⟨hfol, hitem⟩ := h
    have hloc := parseLocationWith_name
      (fun r => match r with
        | some rule => some (jsTrim (dumpVRule rule))
        | none => some (S "undefined"))
      e.path e.param e.paramOrder 2
    have hname : item.name = '/' :: List.intercalate ['/']
        ((splitOnChar '/' (e.path.drop 1)).map rewriteSeg) := by
      rw [← hitem]
      exact hloc.1
    refine ⟨hname, by rw [hname]; rfl, ?_⟩
    intro f hf heq
    have hns : '/' ∉ f := by
      refine hloc.2 f ?_
      rw [hfol]
      exact hf
    rw [heq, hname] at hns
    exact hns (List.mem_cons_self _ _)

/-- The two-parameterless-GET endpoints of the spec examples. -/
def epOrders : Endpoint :=
  { path := S "/users/:id/orders", method := .GET, param := [(S "id", strRule)]
    paramOrder := [S "id"], query := none, bodyRule := none, body := none, bodyType := none }

/-- The sibling endpoint sharing the two-segment folder prefix. -/
def epProfile : Endpoint :=
  { path := S "/users/:id/profile", method := .GET, param := [(S "id", strRule)]
    paramOrder := [S "id"], query := none, bodyRule := none, body := none, bodyType := none }

/-- The options `buildCollection` applies by default. -/
def opts0 : Options := { commentsInJson := true, maxFolders := 2, authorization := none }

/-- C10 witness: for `/users/:id/orders` the generated name is
`/users/:id/orders`, and the folder segment `users` differs from it. -/
theorem c10_item_names_witness : S "users" ≠ S "/users/:id/orders" := by
  have h := (c10_item_names epOrders opts0).1 _ _ rfl
  intro heq
  exact (h.2.2 (S "users") (by decide)) heq

/-! ## C4 — the Content-Type header -/

/-- C4 counterexample: a GET endpoint with no body, assembled by
`addEndpoints` in `src/index.ts`, carries the `Content-Type` header even
though it has no body envelope at all — the claim requires an empty
header list there. -/
theorem c4_counterexample :
    (HB.buildOne epOrders none).map (fun p => (p.2.header, p.2.body)) =
      .ok ([⟨S "Content-Type", S "application/json"⟩], none) ∧
    ([(⟨S "Content-Type", S "application/json"⟩ : Header)] : List Header) ≠ [] :=
  ⟨rfl, by simp⟩

/-- C4 amended: in `buildItems` (`collection-schema.ts`) the assembled
item carries the single `Content-Type: application/json` header exactly
when its body is the raw-text envelope, and an empty header list for
multipart bodies and bodiless endpoints; `addEndpoints` (`index.ts`),
however, attaches that header to every item unconditionally. -/
theorem c4_content_type_header (e : Endpoint) (opts : Options) :
    (∀ folders item, CS.buildOne e opts = .ok (folders, item) →
      ((item.header = [⟨S "Content-Type", S "application/json"⟩] ↔
          ∃ s, item.body = some (.raw s)) ∧
        ((∀ s, item.body ≠ some (.raw s)) → item.header = []))) ∧
    (∀ auth folders item, HB.buildOne e auth = .ok (folders, item) →
      item.header = [⟨S "Content-Type", S "application/json"⟩]) := by
  constructor
  · intro folders item h
    unfold CS.buildOne at h
    rw [bind_eq_ok] at h
    obtain ⟨bodyData, hbd, h⟩ := h
    simp at h
    obtain ⟨hfol, hitem⟩ := h
    subst hitem
    generalize (if e.method.hasBody = true then
        match bodyData with
        | some (.inl s) => if s = [] then none else some (BodyEnv.raw s)
        | some (.inr fd) => some (.formdata fd)
        | none => none
      else none) = benv
    rcases benv with _ | (s | fd)
    · refine ⟨⟨fun hc => absurd hc (by simp), fun hs => ?_⟩, fun _ => rfl⟩
      obtain ⟨s, hs⟩ := hs
      simp at hs
    · exact ⟨⟨fun _ => ⟨s, rfl⟩, fun _ => rfl⟩, fun hno => absurd rfl (hno s)⟩
    · refine ⟨⟨fun hc => absurd hc (by simp), fun hs => ?_⟩, fun _ => rfl⟩
      obtain ⟨s, hs⟩ := hs
      simp at hs
  · intro auth folders item h
    unfold HB.buildOne at h
    rw [bind_eq_ok] at h
    obtain ⟨pb, hpb, h⟩ := h
    simp at h
    rw [← h.2]

/-- The request item `buildItems` assembles for `epOrders` under the
default options. -/
def itemOrdersCS : Item :=
  { name := S "/users/:id/orders", method := .GET, header := [], body := none
    url := { raw := hostStr ++ S "/users/:id/orders", host := [hostStr]
             path := [S "users", S ":id", S "orders"]
             vars := [⟨S "id", [], some (dumpSpread strRule)⟩], query := [] }
    auth := none }

/-- C4 witness: the header law applied at the bodiless GET endpoint
`/users/:id/orders`, whose `buildItems` item indeed has no header. -/
theorem c4_content_type_header_witness : itemOrdersCS.header = [] :=
  ((c4_content_type_header epOrders opts0).1 [S "users", S ":id"] itemOrdersCS rfl).2
    (fun s hs => by simp [itemOrdersCS] at hs)

/-! ## C5 — the folder tree and its sibling-name invariant -/

/-- No folder named `n` among the siblings. -/
def noFolderNamed (n : Str) : List TreeItem → Bool
  | [] => true
  | .folder m _ :: xs => decide (m ≠ n) && noFolderNamed n xs
  | .leaf _ :: xs => noFolderNamed n xs

mutual

/-- Sibling-uniqueness inside one node. -/
def nodupT : TreeItem → Bool
  | .folder _ ch => nodupFolders ch
  | .leaf _ => true

/-- The claim's invariant, recursively: no two sibling folder nodes share
a name, at any level of the tree. -/
def nodupFolders : List TreeItem → Bool
  | [] => true
  | .folder n ch :: xs => nodupT (.folder n ch) && noFolderNamed n xs && nodupFolders xs
  | .leaf _ :: xs => nodupFolders xs

end

mutual

/-- The naming discipline of one node: a folder's name has no `/`, a
leaf's name starts with `/`. -/
def wellNamedT : TreeItem → Bool
  | .folder n ch => decide ('/' ∉ n) && wellNamed ch
  | .leaf it => decide (it.name.head? = some '/')

/-- The naming discipline, over a sibling list. -/
def wellNamed : List TreeItem → Bool
  | [] => true
  | x :: xs => wellNamedT x && wellNamed xs

end

theorem noFolderNamed_append {n : Str} {a b : List TreeItem} :
    noFolderNamed n (a ++ b) = (noFolderNamed n a && noFolderNamed n b) := by
  induction a with
  | nil => simp [noFolderNamed]
  | cons x xs ih =>
    cases x <;> simp [noFolderNamed, ih, Bool.and_assoc]

theorem nodupFolders_append_leaf {a : List TreeItem} {it : Item}
    (h : nodupFolders a = true) : nodupFolders (a ++ [.leaf it]) = true := by
  induction a with
  | nil => rfl
  | cons x xs ih =>
    cases x with
    | folder n ch =>
      simp [nodupFolders, nodupT] at h ⊢
      obtain ⟨⟨h1, h2⟩, h3⟩ := h
      refine ⟨⟨h1, ?_⟩, ih h3⟩
      rw [noFolderNamed_append]
      simp [noFolderNamed, h2]
    | leaf l =>
      simp [nodupFolders] at h ⊢
      exact ih h

theorem wellNamed_append {a b : List TreeItem} :
    wellNamed (a ++ b) = (wellNamed a && wellNamed b) := by
  induction a with
  | nil => simp [wellNamed]
  | cons x xs ih =>
    simp [wellNamed, ih, Bool.and_assoc]

/-- Inserting along a fresh folder name leaves other folder names alone:
the walk either renames nothing or appends one folder named `f`. -/
theorem noFolderNamed_insertFolder {n f : Str} (go : List TreeItem → List TreeItem)
    {items : List TreeItem} (hne : n ≠ f) (h : noFolderNamed n items = true) :
    noFolderNamed n (insertFolder f go items) = true := by
  induction items with
  | nil => simp [insertFolder, noFolderNamed, Ne.symm hne]
  | cons x xs ih =>
    cases x with
    | folder m ch =>
      simp [noFolderNamed] at h
      by_cases hm : TreeItem.nameOf (.folder m ch) = f
      · simp [insertFolder, hm, noFolderNamed, h.1, h.2]
      · simp [insertFolder, hm, noFolderNamed, h.1, ih h.2]
    | leaf l =>
      simp [noFolderNamed] at h
      by_cases hm : TreeItem.nameOf (.leaf l) = f
      · simp [insertFolder, hm, noFolderNamed]
        rw [noFolderNamed_append]
        simp [noFolderNamed, h, Ne.symm hne]
      · simp [insertFolder, hm, noFolderNamed, ih h]

/-- The insertion walk preserves both the naming discipline and the
sibling-uniqueness invariant, provided the inserted folder names carry no
`/` and the leaf's name starts with one. -/
theorem insertPath_invariant :
    ∀ (fs : List Str) (it : Item) (items : List TreeItem),
      (∀ f ∈ fs, '/' ∉ f) → it.name.head? = some '/' →
      wellNamed items = true → nodupFolders items = true →
      wellNamed (insertPath fs it items) = true ∧
        nodupFolders (insertPath fs it items) = true := by
  intro fs
  induction fs with
  | nil =>
    intro it items _ hname hw hn
    refine ⟨?_, nodupFolders_append_leaf hn⟩
    rw [insertPath, wellNamed_append]
    simp [wellNamed, wellNamedT, hname, hw]
  | cons f fs ih =>
    intro it items hf hname hw hn
    have hfno : '/' ∉ f := hf f (List.mem_cons_self _ _)
    have hfs : ∀ g ∈ fs, '/' ∉ g := fun g hg => hf g (List.mem_cons_of_mem _ hg)
    rw [insertPath]
    induction items with
    | nil =>
      have hrec := ih it [] hfs hname (by rfl) (by rfl)
      simp [insertFolder, wellNamed, wellNamedT, nodupFolders, nodupT,
        noFolderNamed, hfno, hrec.1, hrec.2]
    | cons x xs ihx =>
      cases x with
      | folder m ch =>
        simp [wellNamed, wellNamedT] at hw
        simp [nodupFolders, nodupT] at hn
        obtain ⟨⟨hw1, hw2⟩, hw3⟩ := hw
        obtain ⟨⟨hn1, hn2⟩, hn3⟩ := hn
        by_cases hm : TreeItem.nameOf (.folder m ch) = f
        · have hrec := ih it ch hfs hname hw2 hn1
          simp [insertFolder, hm, wellNamed, wellNamedT, nodupFolders, nodupT,
            hw1, hw3, hrec.1, hrec.2, hn2, hn3]
        · have hx := ihx hw3 hn3
          simp [insertFolder, hm, wellNamed, wellNamedT, nodupFolders, nodupT,
            hw1, hw2, hn1, hx.1, hx.2]
          exact noFolderNamed_insertFolder _ (by simpa [TreeItem.nameOf] using hm) hn2
      | leaf l =>
        simp [wellNamed, wellNamedT] at hw
        simp [nodupFolders] at hn
        by_cases hm : TreeItem.nameOf (.leaf l) = f
        · exfalso
          simp [TreeItem.nameOf] at hm
          rw [hm] at hw
          cases f with
          | nil => simp at hw
          | cons c cf =>
            have hc : c = '/' := by
              have := hw.1
              simp at this
              exact this
            rw [hc] at hfno
            exact hfno (List.mem_cons_self _ _)
        · have hx := ihx hw.2 hn
          simp [insertFolder, hm, wellNamed, wellNamedT, nodupFolders,
            hw.1, hx.1, hx.2]

/-- The folder prefix and item name any `buildItems` endpoint
contributes: slash-free folder segments, slash-led leaf name. -/
theorem CS_buildOne_shape (e : Endpoint) (opts : Options) (folders : List Str) (item : Item)
    (h : CS.buildOne e opts = .ok (folders, item)) :
    (∀ f ∈ folders, '/' ∉ f) ∧ item.name.head? = some '/' := by
  unfold CS.buildOne CS.parseLocation at h
  rw [bind_eq_ok] at h
  obtain ⟨bodyData, hbd, h⟩ := h
  simp at h
  obtain ⟨hfol, hitem⟩ := h
  have hloc := parseLocationWith_name
    (fun r => match r with | some rule => CS.inspect rule | none => none)
    e.path e.param e.paramOrder opts.maxFolders
  constructor
  · intro f hf
    refine hloc.2 f ?_
    rw [hfol]
    exact hf
  · rw [← hitem]
    show (List.drop _ _).head? = some '/'
    rw [hloc.1]
    rfl

/-- Likewise for the `addEndpoints` assembler. -/
theorem HB_buildOne_shape (e : Endpoint) (auth : Option (Endpoint → Option Auth))
    (folders : List Str) (item : Item)
    (h : HB.buildOne e auth = .ok (folders, item)) :
    (∀ f ∈ folders, '/' ∉ f) ∧ item.name.head? = some '/' := by
  unfold HB.buildOne HB.parseLocation at h
  rw [bind_eq_ok] at h
  obtain ⟨pb, hpb, h⟩ := h
  simp at h
  obtain ⟨hfol, hitem⟩ := h
  have hloc := parseLocationWith_name
    (fun r => match r with
      | some rule => some (jsTrim (dumpVRule rule))
      | none => some (S "undefined"))
    e.path e.param e.paramOrder 2
  constructor
  · intro f hf
    refine hloc.2 f ?_
    rw [hfol]
    exact hf
  · rw [← hitem]
    show (List.drop _ _).head? = some '/'
    rw [hloc.1]
    rfl

/-- The `buildItems` fold preserves the tree invariants. -/
theorem buildItemsAux_invariant (opts : Options) :
    ∀ (es : List Endpoint) (acc : List TreeItem),
      wellNamed acc = true → nodupFolders acc = true →
      ∀ out, CS.buildItemsAux opts es acc = .ok out →
        wellNamed out = true ∧ nodupFolders out = true := by
  intro es
  induction es with
  | nil =>
    intro acc hw hn out h
    simp [CS.buildItemsAux] at h
    subst h
    exact ⟨hw, hn⟩
  | cons e rest ihe =>
    intro acc hw hn out h
    rw [CS.buildItemsAux] at h
    rw [bind_eq_ok] at h
    obtain ⟨⟨folders, item⟩, hb, h⟩ := h
    have hsh := CS_buildOne_shape e opts folders item hb
    have hins := insertPath_invariant folders item acc hsh.1 hsh.2 hw hn
    exact ihe _ hins.1 hins.2 out h

/-- The `addEndpoints` fold preserves the tree invariants. -/
theorem addEndpointsAux_invariant (auth : Option (Endpoint → Option Auth)) :
    ∀ (es : List Endpoint) (acc : List TreeItem),
      wellNamed acc = true → nodupFolders acc = true →
      ∀ out, HB.addEndpointsAux auth es acc = .ok out →
        wellNamed out = true ∧ nodupFolders out = true := by
  intro es
  induction es with
  | nil =>
    intro acc hw hn out h
    simp [HB.addEndpointsAux] at h
    subst h
    exact ⟨hw, hn⟩
  | cons e rest ihe =>
    intro acc hw hn out h
    rw [HB.addEndpointsAux] at h
    rw [bind_eq_ok] at h
    obtain ⟨⟨folders, item⟩, hb, h⟩ := h
    have hsh := HB_buildOne_shape e auth folders item hb
    have hins := insertPath_invariant folders item acc hsh.1 hsh.2 hw hn
    exact ihe _ hins.1 hins.2 out h

/-- The request item `buildItems` assembles for `epProfile`. -/
def itemProfileCS : Item :=
  { name := S "/users/:id/profile", method := .GET, header := [], body := none
    url := { raw := hostStr ++ S "/users/:id/profile", host := [hostStr]
             path := [S "users", S ":id", S "profile"]
             vars := [⟨S "id", [], some (dumpSpread strRule)⟩], query := [] }
    auth := none }

/-- C5: folder lookup is by exact name equality among the current
siblings with the first match winning, and each insertion level either
descends into the matched folder (sibling count unchanged) or appends
exactly one new folder node; every tree either assembler builds satisfies
the no-two-sibling-folders-share-a-name invariant; and the two endpoints
sharing the `users/:id` prefix end up under one shared folder pair, each
as a single leaf request. -/
theorem c5_folder_tree :
    (∀ (f : Str) (go : List TreeItem → List TreeItem) (items : List TreeItem),
      (insertFolder f go items).length =
        (match items.find? (fun x => x.nameOf = f) with
         | some (.folder _ _) => items.length
         | _ => items.length + 1)) ∧
    (∀ endpoints opts out, CS.buildItems endpoints opts = .ok out →
      nodupFolders out = true) ∧
    (∀ endpoints auth out, HB.addEndpoints endpoints auth = .ok out →
      nodupFolders out = true) ∧
    CS.buildItems [epOrders, epProfile] opts0 =
      .ok [.folder (S "users") [.folder (S ":id")
            [.leaf itemOrdersCS, .leaf itemProfileCS]]] := by
  refine ⟨?_, ?_, ?_, rfl⟩
  · intro f go items
    induction items with
    | nil => rfl
    | cons x xs ih =>
      by_cases hm : x.nameOf = f
      · rw [List.find?_cons_of_pos _ (by simpa using hm)]
        cases x with
        | folder m ch =>
          rw [insertFolder, if_pos hm]
          simp
        | leaf l =>
          rw [insertFolder, if_pos hm]
          simp
      · rw [List.find?_cons_of_neg _ (by simpa using hm)]
        have hstep : insertFolder f go (x :: xs) = x :: insertFolder f go xs := by
          cases x <;> rw [insertFolder, if_neg hm]
        rw [hstep]
        simp only [List.length_cons, ih]
        cases hfind : xs.find? (fun t => t.nameOf = f) with
        | none => rfl
        | some y => cases y <;> rfl
  · intro endpoints opts out h
    exact (buildItemsAux_invariant opts endpoints [] (by rfl) (by rfl) out h).2
  · intro endpoints auth out h
    exact (addEndpointsAux_invariant auth endpoints [] (by rfl) (by rfl) out h).2

/-- C5 witness: the invariant theorem applied to the concrete
two-endpoint build, whose tree is the single shared `users`/`:id` folder
pair. -/
theorem c5_folder_tree_witness :
    nodupFolders [.folder (S "users") [.folder (S ":id")
      [.leaf itemOrdersCS, .leaf itemProfileCS]]] = true :=
  c5_folder_tree.2.1 [epOrders, epProfile] opts0 _ rfl

/-! ## C8 — the annotated-JSON round trip

The claim measures the serializer against standard JSON parsing, so the
embedding needs a JSON parser.  `parseJsonText` below parses the JSON
subset the model produces (integer numerals; string escapes decoded for
the simple escape set, `\u` not modelled) and skips `//` line comments
wherever whitespace is allowed — the claim's "ignoring the trailing line
comments". -/

/-- JSON insignificant whitespace. -/
def isWsChar (c : Char) : Bool := c = ' ' || c = '\t' || c = '\n' || c = '\r'

/-- Whitespace-and-comment skipping; the flag records being inside a `//`
comment, which a newline ends. -/
def skipWsAux : Bool → Str → Str
  | false, [] => []
  | false, c :: cs =>
    if isWsChar c then skipWsAux false cs
    else if c = '/' && cs.head? = some '/' then skipWsAux true cs
    else c :: cs
  | true, [] => []
  | true, c :: cs => if c = '\n' then skipWsAux false cs else skipWsAux true cs

/-- Skip whitespace and `//` line comments. -/
def skipWs (s : Str) : Str := skipWsAux false s

/-- Decode a one-character JSON escape. -/
def escDecode (c : Char) : Option Char :=
  if c = qC then some qC
  else if c = bsC then some bsC
  else if c = '/' then some '/'
  else if c = 'n' then some '\n'
  else if c = 't' then some '\t'
  else if c = 'r' then some '\r'
  else if c = 'b' then some (Char.ofNat 8)
  else if c = 'f' then some (Char.ofNat 12)
  else none

/-- Parse a JSON string body (after the opening quote) up to the closing
quote; raw control characters are rejected as JSON requires. -/
def parseStrBody : Str → Option (Str × Str)
  | [] => none
  | c :: cs =>
    if c = qC then some ([], cs)
    else if c = bsC then
      match cs with
      | e :: cs' =>
        match escDecode e with
        | some d => (parseStrBody cs').map (fun p => (d :: p.1, p.2))
        | none => none
      | [] => none
    else if c.toNat < 32 then none
    else (parseStrBody cs).map (fun p => (c :: p.1, p.2))

/-- Accumulate decimal digits. -/
def parseDigitsAux : Str → Nat → (Nat × Str)
  | [], acc => (acc, [])
  | c :: cs, acc =>
    if c.isDigit then parseDigitsAux cs (acc * 10 + (c.toNat - 48)) else (acc, c :: cs)

/-- Parse an (optionally negated) integer numeral. -/
def parseNum : Str → Option (Int × Str)
  | '-' :: cs =>
    match cs with
    | c :: _ =>
      if c.isDigit then
        let p := parseDigitsAux cs 0
        some (-(p.1 : Int), p.2)
      else none
    | [] => none
  | c :: cs =>
    if c.isDigit then
      let p := parseDigitsAux (c :: cs) 0
      some ((p.1 : Int), p.2)
    else none
  | [] => none

mutual

/-- Parse one JSON value, returning it with the unconsumed suffix. -/
def parseVal : Nat → Str → Option (Json × Str)
  | 0, _ => none
  | fuel + 1, s =>
    match skipWs s with
    | 'n' :: 'u' :: 'l' :: 'l' :: r => some (.null, r)
    | 't' :: 'r' :: 'u' :: 'e' :: r => some (.bool true, r)
    | 'f' :: 'a' :: 'l' :: 's' :: 'e' :: r => some (.bool false, r)
    | c :: r =>
      if c = qC then (parseStrBody r).map (fun p => (.str p.1, p.2))
      else if c = '[' then
        match skipWs r with
        | ']' :: r2 => some (.arr [], r2)
        | r' => (parseElemsLoop fuel r').map (fun p => (.arr p.1, p.2))
      else if c = '{' then
        match skipWs r with
        | '}' :: r2 => some (.obj [], r2)
        | r' => (parseMembersLoop fuel r').map (fun p => (.obj p.1, p.2))
      else (parseNum (c :: r)).map (fun p => (.num p.1, p.2))
    | [] => none

/-- Parse the (nonempty) comma-separated elements of an array and its
closing bracket. -/
def parseElemsLoop : Nat → Str → Option (List Json × Str)
  | 0, _ => none
  | fuel + 1, s => do
    let (v, r1) ← parseVal fuel s
    match skipWs r1 with
    | ',' :: r2 => do
      let (vs, r3) ← parseElemsLoop fuel r2
      some (v :: vs, r3)
    | ']' :: r2 => some ([v], r2)
    | _ => none

/-- Parse the (nonempty) comma-separated members of an object and its
closing brace. -/
def parseMembersLoop : Nat → Str → Option (List (Str × Json) × Str)
  | 0, _ => none
  | fuel + 1, s =>
    match skipWs s with
    | c :: r =>
      if c = qC then do
        let (k, r1) ← parseStrBody r
        match skipWs r1 with
        | ':' :: r2 => do
          let (v, r3) ← parseVal fuel r2
          match skipWs r3 with
          | ',' :: r4 => do
            let (ms, r5) ← parseMembersLoop fuel r4
            some ((k, v) :: ms, r5)
          | '}' :: r4 => some ([(k, v)], r4)
          | _ => none
        | _ => none
      else none
    | [] => none

end

/-- Parse a whole JSON text: one value and nothing but trailing
whitespace/comments. -/
def parseJsonText (s : Str) : Option Json :=
  match parseVal (s.length + 1) s with
  | some (v, rest) => if skipWs rest = [] then some v else none
  | none => none

/-- A rule whose default is the one-character string consisting of a
double quote. -/
def quoteRule : VRule := .prim none (some (.json (.str [qC]))) none none none none none

/-- C8 counterexample: the compiled value of `quoteRule` is the string
`"` (verbatim default); the serializer interpolates it between quotes
with no escaping, producing three consecutive quote characters, and
parsing that text as JSON fails outright — no structurally identical
value is recovered. -/
theorem c8_counterexample :
    ((HB.parseRuleToJsonc quoteRule).bind (fun v => HB.stringifyJsonc v true 0)).map
      parseJsonText = .ok none ∧
    (none : Option Json) ≠ some (.str [qC]) :=
  ⟨rfl, by simp⟩

/-- A character a JSON string may hold unescaped. -/
def safeChar (c : Char) : Bool := !(c = qC || c = bsC || c.toNat < 32)

/-- A string the unescaping serializer renders as valid JSON. -/
def safeStr (s : Str) : Bool := s.all safeChar

/-- A description slot whose comment stays on one line. -/
def goodDesc : JSVal → Bool
  | .undef => true
  | .str s => s.all (fun c => c ≠ '\n')
  | _ => false

mutual

/-- A value slot the serializer renders as parseable JSON: scalars and
containers of well-formed annotated pairs, with JSON-safe strings.  Raw
structured defaults (bare JSON spliced into pair positions) and `undefined`
are excluded. -/
def goodVal : JSVal → Bool
  | .null => true
  | .bool _ => true
  | .num _ => true
  | .str s => safeStr s
  | .arr xs => goodPairs xs
  | .obj fs => goodMembers fs
  | .undef => false

def goodPairs : List JSVal → Bool
  | [] => true
  | p :: rest => goodPair p && goodPairs rest

/-- A well-formed annotated pair `[value, description]`. -/
def goodPair : JSVal → Bool
  | .arr [v, d] => goodVal v && goodDesc d
  | _ => false

def goodMembers : List (Str × JSVal) → Bool
  | [] => true
  | (k, v) :: rest => safeStr k && goodPair v && goodMembers rest

end

mutual

/-- Strip the annotations from a compiled value ("structurally
identical" of the claim compares the parsed JSON against this). -/
def eraseVal : JSVal → Json
  | .null => .null
  | .bool b => .bool b
  | .num n => .num n
  | .str s => .str s
  | .arr xs => .arr (erasePairs xs)
  | .obj fs => .obj (eraseMembers fs)
  | .undef => .null

def erasePairs : List JSVal → List Json
  | [] => []
  | p :: rest => erasePair p :: erasePairs rest

/-- The value under an annotated pair. -/
def erasePair : JSVal → Json
  | .arr (v :: _) => eraseVal v
  | _ => .null

def eraseMembers : List (Str × JSVal) → List (Str × Json)
  | [] => []
  | (k, v) :: rest => (k, erasePair v) :: eraseMembers rest

end

mutual

/-- Parser fuel sufficient for a value slot. -/
def FV : JSVal → Nat
  | .arr xs => 1 + FPs xs
  | .obj fs => 1 + FMs fs
  | _ => 1

def FPs : List JSVal → Nat
  | [] => 1
  | p :: rest => 1 + max (FP p) (FPs rest)

/-- Parser fuel sufficient for an annotated pair. -/
def FP : JSVal → Nat
  | .arr (v :: _) => FV v
  | _ => 1

def FMs : List (Str × JSVal) → Nat
  | [] => 1
  | (_, v) :: rest => 1 + max (FP v) (FMs rest)

end

/-- The newline-terminated part of a comment suffix (after the optional
comma). -/
def commentNl (d : JSVal) : Str :=
  if d.truthy then ' ' :: '/' :: '/' :: ' ' :: d.toStr ++ ['\n'] else ['\n']

theorem commentStr_eq (d : JSVal) (last : Bool) :
    HB.commentStr d last = (if last then [] else [',']) ++ commentNl d := rfl

/-- The comment suffix a serialized pair leaves for its parent. -/
def pairComment (p : JSVal) (last : Bool) : Str :=
  match p with
  | .arr (_ :: rest) => HB.commentStr (rest.getD 0 .undef) last
  | _ => []

/-! ### Whitespace-skipping facts -/

theorem skipWs_cons_ws (c : Char) (h : isWsChar c = true) (r : Str) :
    skipWs (c :: r) = skipWs r := by
  rw [skipWs, skipWsAux, if_pos h]
  rfl

theorem skipWs_not_ws (c : Char) (h1 : isWsChar c = false) (h2 : c ≠ '/') (r : Str) :
    skipWs (c :: r) = c :: r := by
  rw [skipWs, skipWsAux, if_neg (by simp [h1])]
  rw [if_neg (by simp [h2])]

theorem skipWs_tabs (n : Nat) (r : Str) : skipWs (tabs n ++ r) = skipWs r := by
  induction n with
  | zero => rfl
  | succ m ih =>
    show skipWs ('\t' :: (tabs m ++ r)) = skipWs r
    rw [skipWs_cons_ws '\t' (by decide), ih]

theorem skipWsAux_true_no_nl :
    ∀ (a : Str), (∀ c ∈ a, c ≠ '\n') → ∀ r, skipWsAux true (a ++ '\n' :: r) = skipWsAux false r := by
  intro a
  induction a with
  | nil =>
    intro _ r
    show skipWsAux true ('\n' :: r) = skipWsAux false r
    rw [skipWsAux, if_pos rfl]
  | cons c cs ih =>
    intro h r
    show skipWsAux true (c :: (cs ++ '\n' :: r)) = skipWsAux false r
    rw [skipWsAux, if_neg (h c (List.mem_cons_self _ _)), ih (fun x hx => h x (List.mem_cons_of_mem _ hx))]

theorem skipWs_comment {s : Str} (hs : ∀ c ∈ s, c ≠ '\n') (r : Str) :
    skipWs (' ' :: '/' :: '/' :: ' ' :: (s ++ '\n' :: r)) = skipWs r := by
  rw [skipWs_cons_ws ' ' (by decide)]
  rw [skipWs, skipWsAux, if_neg (by decide), if_pos (by rfl)]
  have := skipWsAux_true_no_nl ('/' :: ' ' :: s)
    (by
      intro c hc
      rcases List.mem_cons.mp hc with hc | hc
      · subst hc; decide
      rcases List.mem_cons.mp hc with hc | hc
      · subst hc; decide
      · exact hs c hc) r
  simpa using this

theorem skipWs_commentNl {d : JSVal} (hd : goodDesc d = true) (r : Str) :
    skipWs (commentNl d ++ r) = skipWs r := by
  cases d with
  | undef =>
    show skipWs ('\n' :: r) = skipWs r
    rw [skipWs_cons_ws '\n' (by decide)]
  | str s =>
    cases s with
    | nil =>
      show skipWs ('\n' :: r) = skipWs r
      rw [skipWs_cons_ws '\n' (by decide)]
    | cons c cs =>
      have hnl : ∀ x ∈ c :: cs, x ≠ '\n' := by
        simp [goodDesc] at hd
        intro x hx
        rcases List.mem_cons.mp hx with hx | hx
        · subst hx; exact hd.1
        · exact hd.2 x hx
      have h2 := skipWs_comment hnl r
      show skipWs ((if JSVal.truthy (.str (c :: cs)) then
        ' ' :: '/' :: '/' :: ' ' :: JSVal.toStr (.str (c :: cs)) ++ ['\n']
        else ['\n']) ++ r) = skipWs r
      rw [if_pos (by simp [JSVal.truthy])]
      simp only [JSVal.toStr, List.cons_append, List.append_assoc, List.singleton_append]
      simpa using h2
  | null => simp [goodDesc] at hd
  | bool b => simp [goodDesc] at hd
  | num n => simp [goodDesc] at hd
  | arr xs => simp [goodDesc] at hd
  | obj fs => simp [goodDesc] at hd

/-- `skipWs` is idempotent. -/
theorem skipWsAux_fix : ∀ (s : Str) (mode : Bool),
    skipWsAux false (skipWsAux mode s) = skipWsAux mode s := by
  intro s
  induction s with
  | nil => intro mode; cases mode <;> rfl
  | cons c cs ih =>
    intro mode
    cases mode with
    | true =>
      rw [skipWsAux]
      by_cases h : c = '\n'
      · rw [if_pos h]; exact ih false
      · rw [if_neg h]; exact ih true
    | false =>
      rw [skipWsAux]
      by_cases h1 : isWsChar c = true
      · rw [if_pos h1]; exact ih false
      · rw [if_neg (by simp [h1])]
        by_cases h2 : (c = '/' && cs.head? = some '/') = true
        · rw [if_pos h2]; exact ih true
        · rw [if_neg (by simp at h2 ⊢; intro hc; exact h2 hc)]
          rw [skipWsAux, if_neg (by simp [h1]), if_neg (by simp at h2 ⊢; intro hc; exact h2 hc)]

theorem parseVal_congr {s s' : Str} (h : skipWs s = skipWs s') :
    ∀ fuel, parseVal fuel s = parseVal fuel s' := by
  intro fuel
  cases fuel with
  | zero => rfl
  | succ f => rw [parseVal, parseVal, h]

theorem parseElemsLoop_congr {s s' : Str} (h : skipWs s = skipWs s') :
    ∀ fuel, parseElemsLoop fuel s = parseElemsLoop fuel s' := by
  intro fuel
  cases fuel with
  | zero => rfl
  | succ f => rw [parseElemsLoop, parseElemsLoop, parseVal_congr h]

theorem parseMembersLoop_congr {s s' : Str} (h : skipWs s = skipWs s') :
    ∀ fuel, parseMembersLoop fuel s = parseMembersLoop fuel s' := by
  intro fuel
  cases fuel with
  | zero => rfl
  | succ f => rw [parseMembersLoop, parseMembersLoop, h]

/-! ### Decimal numerals round-trip -/

theorem digitChar_isDigit {k : Nat} (hk : k < 10) :
    (Char.ofNat (48 + k)).isDigit = true := by
  interval_cases k <;> decide

theorem digitChar_toNat {k : Nat} (hk : k < 10) :
    (Char.ofNat (48 + k)).toNat = 48 + k := by
  interval_cases k <;> decide

theorem natReprAux_acc : ∀ (fuel n : Nat) (acc : Str),
    natReprAux fuel n acc = natReprAux fuel n [] ++ acc := by
  intro fuel
  induction fuel with
  | zero => intro n acc; rfl
  | succ f ih =>
    intro n acc
    rw [natReprAux, natReprAux]
    by_cases h : n < 10
    · simp [h]
    · simp only [h, if_false]
      rw [ih (n / 10) (Char.ofNat (48 + n % 10) :: acc),
          ih (n / 10) [Char.ofNat (48 + n % 10)]]
      simp

theorem natReprAux_digits : ∀ (fuel n : Nat), n < fuel →
    (∀ c ∈ natReprAux fuel n [], c.isDigit = true) ∧ natReprAux fuel n [] ≠ [] := by
  intro fuel
  induction fuel with
  | zero => intro n h; omega
  | succ f ih =>
    intro n hn
    rw [natReprAux]
    by_cases h : n < 10
    · simp only [h, if_true]
      refine ⟨?_, by simp⟩
      intro c hc
      simp at hc
      subst hc
      exact digitChar_isDigit (Nat.mod_lt _ (by omega))
    · simp only [h, if_false]
      rw [natReprAux_acc]
      have hlt : n / 10 < f := by omega
      refine ⟨?_, by simp [(ih _ hlt).2]⟩
      intro c hc
      rcases List.mem_append.mp hc with hc | hc
      · exact (ih _ hlt).1 c hc
      · simp at hc
        subst hc
        exact digitChar_isDigit (Nat.mod_lt _ (by omega))

theorem natRepr_digits (n : Nat) :
    (∀ c ∈ natRepr n, c.isDigit = true) ∧ natRepr n ≠ [] :=
  natReprAux_digits (n + 1) n (by omega)

/-- Value of a digit string under the parser's accumulator. -/
def digitsVal : Str → Nat → Nat
  | [], acc => acc
  | c :: cs, acc => digitsVal cs (acc * 10 + (c.toNat - 48))

theorem digitsVal_append : ∀ (a b : Str) (acc : Nat),
    digitsVal (a ++ b) acc = digitsVal b (digitsVal a acc) := by
  intro a
  induction a with
  | nil => intro b acc; rfl
  | cons c cs ih => intro b acc; exact ih b _

theorem parseDigitsAux_spec : ∀ (s : Str), (∀ c ∈ s, c.isDigit = true) →
    ∀ (r : Str), (∀ c, r.head? = some c → c.isDigit = false) →
    ∀ (acc : Nat), parseDigitsAux (s ++ r) acc = (digitsVal s acc, r) := by
  intro s
  induction s with
  | nil =>
    intro _ r hr acc
    cases r with
    | nil => rfl
    | cons c cs =>
      show parseDigitsAux (c :: cs) acc = (acc, c :: cs)
      rw [parseDigitsAux, if_neg (by simp [hr c rfl])]
  | cons c cs ih =>
    intro hs r hr acc
    show parseDigitsAux (c :: (cs ++ r)) acc = _
    rw [parseDigitsAux, if_pos (hs c (List.mem_cons_self _ _))]
    exact ih (fun x hx => hs x (List.mem_cons_of_mem _ hx)) r hr _

theorem digitsVal_natReprAux : ∀ (fuel n : Nat), n < fuel → ∀ (acc : Nat),
    digitsVal (natReprAux fuel n []) acc =
      acc * 10 ^ (natReprAux fuel n []).length + n := by
  intro fuel
  induction fuel with
  | zero => intro n h; omega
  | succ f ih =>
    intro n hn acc
    rw [natReprAux]
    by_cases h : n < 10
    · simp only [h, if_true]
      show digitsVal [Char.ofNat (48 + n % 10)] acc = _
      rw [digitsVal, digitsVal, digitChar_toNat (Nat.mod_lt _ (by omega))]
      have : n % 10 = n := Nat.mod_eq_of_lt h
      simp [this]
    · simp only [h, if_false]
      rw [natReprAux_acc]
      have hlt : n / 10 < f := by omega
      rw [digitsVal_append, ih _ hlt acc]
      show digitsVal [Char.ofNat (48 + n % 10)] _ = _
      rw [digitsVal, digitsVal, digitChar_toNat (Nat.mod_lt _ (by omega))]
      rw [List.length_append, List.length_singleton, pow_succ]
      have hm : 48 + n % 10 - 48 = n % 10 := by omega
      rw [hm]
      calc (acc * 10 ^ (natReprAux f (n / 10) []).length + n / 10) * 10 + n % 10
          = acc * (10 ^ (natReprAux f (n / 10) []).length * 10) +
              (n / 10 * 10 + n % 10) := by ring
        _ = _ := by rw [Nat.div_add_mod']

theorem digitsVal_natRepr (n : Nat) : digitsVal (natRepr n) 0 = n := by
  have := digitsVal_natReprAux (n + 1) n (by omega) 0
  simpa [natRepr] using this

theorem parseNum_natRepr (n : Nat) (r : Str)
    (hr : ∀ c, r.head? = some c → c.isDigit = false) :
    parseNum (natRepr n ++ r) = some ((n : Int), r) := by
  obtain ⟨hd, hne⟩ := natRepr_digits n
  obtain ⟨c, cs, hcons⟩ : ∃ c cs, natRepr n = c :: cs := by
    cases hrepr : natRepr n with
    | nil => exact absurd hrepr hne
    | cons c cs => exact ⟨c, cs, rfl⟩
  have hcd : c.isDigit = true := hd c (by rw [hcons]; exact List.mem_cons_self _ _)
  have hcq : c ≠ '-' := by intro h; subst h; simp at hcd
  rw [hcons]
  show parseNum (c :: (cs ++ r)) = _
  have hstep : parseNum (c :: (cs ++ r)) =
      if c.isDigit then
        let p := parseDigitsAux (c :: (cs ++ r)) 0
        some ((p.1 : Int), p.2)
      else none := by
    rw [parseNum.eq_def]
    split
    · rename_i heq
      exact absurd (List.head_eq_of_cons_eq heq.symm).symm hcq
    · rename_i c' cs' heq
      rw [(List.head_eq_of_cons_eq heq).symm, (List.tail_eq_of_cons_eq heq).symm]
    · rename_i heq
      exact absurd heq (by simp)
  rw [hstep, if_pos hcd]
  show some _ = _
  have : parseDigitsAux ((c :: cs) ++ r) 0 = (digitsVal (c :: cs) 0, r) :=
    parseDigitsAux_spec (c :: cs) (by rw [← hcons]; exact hd) r hr 0
  rw [List.cons_append] at this
  rw [this]
  have hv : digitsVal (c :: cs) 0 = n := by rw [← hcons]; exact digitsVal_natRepr n
  rw [hv]

theorem parseNum_intRepr (n : Int) (r : Str)
    (hr : ∀ c, r.head? = some c → c.isDigit = false) :
    parseNum (intRepr n ++ r) = some (n, r) := by
  by_cases hneg : n < 0
  · rw [intRepr, if_pos hneg]
    show parseNum ('-' :: (natRepr n.natAbs ++ r)) = _
    obtain ⟨hd, hne⟩ := natRepr_digits n.natAbs
    obtain ⟨c, cs, hcons⟩ : ∃ c cs, natRepr n.natAbs = c :: cs := by
      cases hrepr : natRepr n.natAbs with
      | nil => exact absurd hrepr hne
      | cons c cs => exact ⟨c, cs, rfl⟩
    have hcd : c.isDigit = true := hd c (by rw [hcons]; exact List.mem_cons_self _ _)
    rw [hcons]
    show parseNum ('-' :: (c :: cs ++ r)) = _
    have hred : parseNum ('-' :: (c :: cs ++ r)) =
        if c.isDigit then
          some (-((parseDigitsAux (c :: (cs ++ r)) 0).1 : Int),
            (parseDigitsAux (c :: (cs ++ r)) 0).2)
        else none := rfl
    rw [hred, if_pos hcd]
    have : parseDigitsAux ((c :: cs) ++ r) 0 = (digitsVal (c :: cs) 0, r) :=
      parseDigitsAux_spec (c :: cs) (by rw [← hcons]; exact hd) r hr 0
    rw [List.cons_append] at this
    rw [this]
    have hv : digitsVal (c :: cs) 0 = n.natAbs := by
      rw [← hcons]; exact digitsVal_natRepr n.natAbs
    rw [hv]
    have : -((n.natAbs : Nat) : Int) = n := by omega
    rw [this]
  · rw [intRepr, if_neg hneg]
    rw [parseNum_natRepr n.toNat r hr]
    have : ((n.toNat : Nat) : Int) = n := by omega
    rw [this]

/-! ### Safe strings round-trip -/

theorem parseStrBody_cons (c : Char) (cs : Str) :
    parseStrBody (c :: cs) =
      if c = qC then some ([], cs)
      else if c = bsC then
        match cs with
        | e :: cs2 =>
          match escDecode e with
          | some d => (parseStrBody cs2).map (fun p => (d :: p.1, p.2))
          | none => none
        | [] => none
      else if c.toNat < 32 then none
      else (parseStrBody cs).map (fun p => (c :: p.1, p.2)) := by
  rw [parseStrBody.eq_def]
  rfl

theorem parseStrBody_safe : ∀ {s : Str}, safeStr s = true → ∀ (r : Str),
    parseStrBody (s ++ qC :: r) = some (s, r) := by
  intro s
  induction s with
  | nil =>
    intro _ r
    show parseStrBody (qC :: r) = some ([], r)
    rw [parseStrBody_cons, if_pos rfl]
  | cons c cs ih =>
    intro hs r
    have hc : safeChar c = true := by
      simp [safeStr] at hs
      exact hs.1
    have hcs : safeStr cs = true := by
      simp [safeStr] at hs ⊢
      exact hs.2
    simp [safeChar] at hc
    obtain ⟨⟨h1, h2⟩, h3⟩ := hc
    show parseStrBody (c :: (cs ++ qC :: r)) = some (c :: cs, r)
    rw [parseStrBody_cons, if_neg h1, if_neg h2, if_neg (by omega)]
    rw [ih hcs r]
    rfl

theorem skipWs_idem (s : Str) : skipWs (skipWs s) = skipWs s := skipWsAux_fix s false

/-- Step equation for `parseVal` once the stripped head is known to start
no keyword literal. -/
theorem parseVal_step {s : Str} {c : Char} {r : Str} (h : skipWs s = c :: r)
    (hn : c ≠ 'n') (ht : c ≠ 't') (hf : c ≠ 'f') (fuel : Nat) :
    parseVal (fuel + 1) s =
      if c = qC then (parseStrBody r).map (fun p => (Json.str p.1, p.2))
      else if c = '[' then
        match skipWs r with
        | ']' :: r2 => some (.arr [], r2)
        | r2 => (parseElemsLoop fuel r2).map (fun p => (Json.arr p.1, p.2))
      else if c = '{' then
        match skipWs r with
        | '}' :: r2 => some (.obj [], r2)
        | r2 => (parseMembersLoop fuel r2).map (fun p => (Json.obj p.1, p.2))
      else (parseNum (c :: r)).map (fun p => (Json.num p.1, p.2)) := by
  simp only [parseVal.eq_def]
  rw [h]
  split
  · rename_i r2 heq
    exact absurd (List.head_eq_of_cons_eq heq) hn
  · rename_i r2 heq
    exact absurd (List.head_eq_of_cons_eq heq) ht
  · rename_i r2 heq
    exact absurd (List.head_eq_of_cons_eq heq) hf
  · rename_i c2 r2 heq
    injection heq with h1 h2
    subst h1
    subst h2
    rfl
  · rename_i heq
    exact absurd heq (by simp)

/-- First characters a serialized JSON value can have. -/
def valHead (c : Char) : Prop :=
  c = 'n' ∨ c = 't' ∨ c = 'f' ∨ c = qC ∨ c = '[' ∨ c = '{' ∨ c.isDigit = true ∨ c = '-'

theorem not_eq_of_isDigit {c : Char} (h : c.isDigit = true) (x : Char)
    (hx : x.isDigit = false) : c ≠ x := by
  intro hc
  subst hc
  rw [h] at hx
  exact Bool.noConfusion hx

theorem isDigit_not_ws {c : Char} (h : c.isDigit = true) : isWsChar c = false := by
  have h1 : c ≠ ' ' := not_eq_of_isDigit h ' ' (by decide)
  have h2 : c ≠ '\t' := not_eq_of_isDigit h '\t' (by decide)
  have h3 : c ≠ '\n' := not_eq_of_isDigit h '\n' (by decide)
  have h4 : c ≠ '\r' := not_eq_of_isDigit h '\r' (by decide)
  simp [isWsChar, h1, h2, h3, h4]

theorem valHead_not_ws {c : Char} (h : valHead c) : isWsChar c = false := by
  rcases h with h | h | h | h | h | h | h | h
  all_goals first
    | (subst h; decide)
    | exact isDigit_not_ws h

theorem valHead_ne_slash {c : Char} (h : valHead c) : c ≠ '/' := by
  rcases h with h | h | h | h | h | h | h | h
  all_goals first
    | (subst h; decide)
    | exact not_eq_of_isDigit h '/' (by decide)

theorem valHead_ne_rbrack {c : Char} (h : valHead c) : c ≠ ']' := by
  rcases h with h | h | h | h | h | h | h | h
  all_goals first
    | (subst h; decide)
    | exact not_eq_of_isDigit h ']' (by decide)

theorem valHead_ne_rbrace {c : Char} (h : valHead c) : c ≠ '}' := by
  rcases h with h | h | h | h | h | h | h | h
  all_goals first
    | (subst h; decide)
    | exact not_eq_of_isDigit h '}' (by decide)

/-- A comment suffix starts with a comma, a space or a newline — never a
digit. -/
theorem commentStr_head (d : JSVal) (last : Bool) :
    ∃ ch ct, HB.commentStr d last = ch :: ct ∧ ch.isDigit = false ∧ ch ≠ '-' := by
  cases last with
  | false => exact ⟨',', _, rfl, by decide, by decide⟩
  | true =>
    rw [HB.commentStr]
    by_cases h : d.truthy = true
    · rw [if_pos rfl, if_pos h]
      exact ⟨' ', _, rfl, by decide, by decide⟩
    · rw [if_pos rfl, if_neg (by simpa using h)]
      exact ⟨'\n', _, rfl, by decide, by decide⟩

/-- The head character of a successfully serialized good value. -/
theorem serVal_head {v : JSVal} (hg : goodVal v = true) {comment : Str} {ind : Nat}
    {out : Str} (hs : HB.stringifyVal v comment ind = .ok out) :
    ∃ c r2, out = c :: r2 ∧ valHead c := by
  cases v with
  | undef => simp [goodVal] at hg
  | null =>
    rw [HB.stringifyVal] at hs
    injection hs with hs
    exact ⟨'n', _, hs.symm, .inl rfl⟩
  | bool b =>
    rw [HB.stringifyVal] at hs
    injection hs with hs
    cases b with
    | true => exact ⟨'t', _, hs.symm, .inr (.inl rfl)⟩
    | false => exact ⟨'f', _, hs.symm, .inr (.inr (.inl rfl))⟩
  | num n =>
    rw [HB.stringifyVal] at hs
    injection hs with hs
    by_cases hneg : n < 0
    · refine ⟨'-', natRepr n.natAbs ++ comment, ?_, ?_⟩
      · rw [← hs, intRepr, if_pos hneg]
        rfl
      · exact .inr (.inr (.inr (.inr (.inr (.inr (.inr rfl))))))
    · obtain ⟨hd, hne⟩ := natRepr_digits n.toNat
      obtain ⟨c, cs, hcons⟩ : ∃ c cs, natRepr n.toNat = c :: cs := by
        cases hrepr : natRepr n.toNat with
        | nil => exact absurd hrepr hne
        | cons c cs => exact ⟨c, cs, rfl⟩
      refine ⟨c, cs ++ comment, ?_, ?_⟩
      · rw [← hs, intRepr, if_neg hneg, hcons]
        rfl
      · exact .inr (.inr (.inr (.inr (.inr (.inr (.inl
          (hd c (by rw [hcons]; exact List.mem_cons_self _ _))))))))
  | str s =>
    rw [HB.stringifyVal] at hs
    injection hs with hs
    exact ⟨qC, _, hs.symm, .inr (.inr (.inr (.inl rfl)))⟩
  | arr xs =>
    rw [HB.stringifyVal] at hs
    rw [bind_eq_ok] at hs
    obtain ⟨parts, hparts, hout⟩ := hs
    injection hout with hout
    exact ⟨'[', _, hout.symm, .inr (.inr (.inr (.inr (.inl rfl))))⟩
  | obj fs =>
    rw [HB.stringifyVal] at hs
    rw [bind_eq_ok] at hs
    obtain ⟨parts, hparts, hout⟩ := hs
    injection hout with hout
    exact ⟨'{', _, hout.symm, .inr (.inr (.inr (.inr (.inr (.inl rfl)))))⟩

/-- The head character of a successfully serialized good pair. -/
theorem serPair_head {p : JSVal} (hg : goodPair p = true) {last : Bool} {ind : Nat}
    {out : Str} (hs : HB.stringifyJsonc p last ind = .ok out) :
    ∃ c r2, out = c :: r2 ∧ valHead c := by
  cases p with
  | arr xs =>
    cases xs with
    | nil => simp [goodPair] at hg
    | cons v rest =>
      cases rest with
      | nil => simp [goodPair] at hg
      | cons d rest2 =>
        cases rest2 with
        | nil =>
          simp [goodPair] at hg
          rw [HB.stringifyJsonc] at hs
          exact serVal_head hg.1 hs
        | cons e rest3 => simp [goodPair] at hg
  | undef => simp [goodPair] at hg
  | null => simp [goodPair] at hg
  | bool b => simp [goodPair] at hg
  | num n => simp [goodPair] at hg
  | str s => simp [goodPair] at hg
  | obj fs => simp [goodPair] at hg

theorem FPs_pos : ∀ (xs : List JSVal), 1 ≤ FPs xs := by
  intro xs
  cases xs with
  | nil => exact Nat.le_refl 1
  | cons p r =>
    show 1 ≤ 1 + max (FP p) (FPs r)
    omega

theorem FMs_pos : ∀ (fs : List (Str × JSVal)), 1 ≤ FMs fs := by
  intro fs
  cases fs with
  | nil => exact Nat.le_refl 1
  | cons kv r =>
    show 1 ≤ 1 + max (FP kv.2) (FMs r)
    exact Nat.le_add_right 1 _

theorem FP_pos : ∀ (p : JSVal), 1 ≤ FP p := by
  intro p
  cases p with
  | arr xs =>
    cases xs with
    | nil => exact Nat.le_refl 1
    | cons v r =>
      show 1 ≤ FV v
      cases v with
      | arr ys => show 1 ≤ 1 + FPs ys; omega
      | obj gs => show 1 ≤ 1 + FMs gs; omega
      | undef => exact Nat.le_refl 1
      | null => exact Nat.le_refl 1
      | bool b => exact Nat.le_refl 1
      | num n => exact Nat.le_refl 1
      | str s => exact Nat.le_refl 1
  | undef => exact Nat.le_refl 1
  | null => exact Nat.le_refl 1
  | bool b => exact Nat.le_refl 1
  | num n => exact Nat.le_refl 1
  | str s => exact Nat.le_refl 1
  | obj fs => exact Nat.le_refl 1

/-- The shape of a good annotated pair, and its comment suffix. -/
theorem goodPair_shape {p : JSVal} (hg : goodPair p = true) :
    ∃ v d, p = .arr [v, d] ∧ goodVal v = true ∧ goodDesc d = true ∧
      ∀ last, pairComment p last = HB.commentStr d last := by
  cases p with
  | arr xs =>
    cases xs with
    | nil => simp [goodPair] at hg
    | cons v rest =>
      cases rest with
      | nil => simp [goodPair] at hg
      | cons d rest2 =>
        cases rest2 with
        | nil =>
          simp [goodPair] at hg
          exact ⟨v, d, rfl, hg.1, hg.2, fun _ => rfl⟩
        | cons e rest3 => simp [goodPair] at hg
  | undef => simp [goodPair] at hg
  | null => simp [goodPair] at hg
  | bool b => simp [goodPair] at hg
  | num n => simp [goodPair] at hg
  | str s => simp [goodPair] at hg
  | obj fs => simp [goodPair] at hg

/-- A serialized nonempty element list is its indentation followed by a
value head. -/
theorem serElems_strip : ∀ {xs : List JSVal}, goodPairs xs = true → xs ≠ [] →
    ∀ {ind : Nat} {parts : Str}, HB.stringifyElems xs ind = .ok parts →
    ∃ c0 q, parts = tabs ind ++ c0 :: q ∧ valHead c0 := by
  intro xs hg hne ind parts hp
  cases xs with
  | nil => exact absurd rfl hne
  | cons x xs2 =>
    have hgx : goodPair x = true := by
      simp [goodPairs] at hg
      exact hg.1
    cases xs2 with
    | nil =>
      rw [HB.stringifyElems, bind_eq_ok] at hp
      obtain ⟨s, hsx, hout⟩ := hp
      injection hout with hout
      obtain ⟨c0, q2, hcons, hhead⟩ := serPair_head hgx hsx
      refine ⟨c0, q2, ?_, hhead⟩
      rw [← hout, hcons]
    | cons y rest =>
      rw [HB.stringifyElems, bind_eq_ok] at hp
      obtain ⟨s, hsx, hp2⟩ := hp
      rw [bind_eq_ok] at hp2
      obtain ⟨tl, htl, hout⟩ := hp2
      injection hout with hout
      obtain ⟨c0, q2, hcons, hhead⟩ := serPair_head hgx hsx
      refine ⟨c0, q2 ++ tl, ?_, hhead⟩
      rw [← hout, hcons]
      simp

/-- A serialized nonempty member list is its indentation followed by an
opening key quote. -/
theorem serMembers_strip : ∀ {fs : List (Str × JSVal)}, fs ≠ [] →
    ∀ {ind : Nat} {parts : Str}, HB.stringifyMembers fs ind = .ok parts →
    ∃ q, parts = tabs ind ++ qC :: q := by
  intro fs hne ind parts hp
  cases fs with
  | nil => exact absurd rfl hne
  | cons kv fs2 =>
    obtain ⟨k, v⟩ := kv
    cases fs2 with
    | nil =>
      rw [HB.stringifyMembers, bind_eq_ok] at hp
      obtain ⟨s, hsx, hout⟩ := hp
      injection hout with hout
      exact ⟨k ++ qC :: ':' :: ' ' :: s, by rw [← hout]; simp⟩
    | cons kv2 rest =>
      rw [HB.stringifyMembers, bind_eq_ok] at hp
      obtain ⟨s, hsx, hp2⟩ := hp
      rw [bind_eq_ok] at hp2
      obtain ⟨tl, htl, hout⟩ := hp2
      injection hout with hout
      exact ⟨k ++ qC :: ':' :: ' ' :: (s ++ tl), by rw [← hout]; simp⟩

theorem obind_some {α β : Type} (a : α) (f : α → Option β) : (some a >>= f) = f a := rfl

theorem omap_some {α β : Type} (a : α) (f : α → β) : (some a).map f = some (f a) := rfl

/-- Step equation for `parseElemsLoop` at positive fuel. -/
theorem parseElemsLoop_succ (fuel : Nat) (s : Str) :
    parseElemsLoop (fuel + 1) s = (do
      let (v, r1) ← parseVal fuel s
      match skipWs r1 with
      | ',' :: r2 => do
        let (vs, r3) ← parseElemsLoop fuel r2
        some (v :: vs, r3)
      | ']' :: r2 => some ([v], r2)
      | _ => none) := rfl

/-- Step equation for `parseMembersLoop` at positive fuel. -/
theorem parseMembersLoop_succ (fuel : Nat) (s : Str) :
    parseMembersLoop (fuel + 1) s = (match skipWs s with
      | c :: r =>
        if c = qC then do
          let (k, r1) ← parseStrBody r
          match skipWs r1 with
          | ':' :: r2 => do
            let (v, r3) ← parseVal fuel r2
            match skipWs r3 with
            | ',' :: r4 => do
              let (ms, r5) ← parseMembersLoop fuel r4
              some ((k, v) :: ms, r5)
            | '\x7d' :: r4 => some ([(k, v)], r4)
            | _ => none
          | _ => none
        else none
      | [] => none) := rfl

/-- Step equation for `parseMembersLoop` once the stripped head is known. -/
theorem parseMembersLoop_cons (fuel : Nat) {s : Str} {c : Char} {r : Str}
    (h : skipWs s = c :: r) :
    parseMembersLoop (fuel + 1) s =
      if c = qC then do
        let (k, r1) ← parseStrBody r
        match skipWs r1 with
        | ':' :: r2 => do
          let (v, r3) ← parseVal fuel r2
          match skipWs r3 with
          | ',' :: r4 => do
            let (ms, r5) ← parseMembersLoop fuel r4
            some ((k, v) :: ms, r5)
          | '\x7d' :: r4 => some ([(k, v)], r4)
          | _ => none
        | _ => none
      else none := by
  rw [parseMembersLoop_succ, h]

mutual

/-- Serialize-then-parse round trip, value level: a good value slot,
serialized with a well-formed comment suffix, parses back to its erasure
with exactly the comment suffix left over. -/
theorem rt_val : ∀ (v : JSVal), goodVal v = true →
    ∀ (d : JSVal), goodDesc d = true → ∀ (last : Bool) (ind : Nat) (out : Str),
      HB.stringifyVal v (HB.commentStr d last) ind = .ok out →
    ∀ (fuel : Nat), FV v ≤ fuel + 1 →
    ∀ (rest : Str), parseVal (fuel + 1) (out ++ rest) =
      some (eraseVal v, HB.commentStr d last ++ rest)
  | .undef => by intro hg; simp [goodVal] at hg
  | .null => by
    intro hg d hd last ind out hs fuel hf rest
    rw [HB.stringifyVal] at hs
    injection hs with hs
    subst hs
    have hsk : skipWs ((S "null" ++ HB.commentStr d last) ++ rest) =
        'n' :: 'u' :: 'l' :: 'l' :: (HB.commentStr d last ++ rest) := by
      rw [List.append_assoc]
      exact skipWs_not_ws 'n' (by decide) (by decide) _
    simp only [parseVal.eq_def, hsk]
    rfl
  | .bool b => by
    intro hg d hd last ind out hs fuel hf rest
    rw [HB.stringifyVal] at hs
    injection hs with hs
    subst hs
    cases b with
    | true =>
      have hsk : skipWs (((if true then S "true" else S "false") ++
          HB.commentStr d last) ++ rest) =
          't' :: 'r' :: 'u' :: 'e' :: (HB.commentStr d last ++ rest) := by
        rw [List.append_assoc]
        exact skipWs_not_ws 't' (by decide) (by decide) _
      simp only [parseVal.eq_def, hsk]
      rfl
    | false =>
      have hsk : skipWs (((if false then S "true" else S "false") ++
          HB.commentStr d last) ++ rest) =
          'f' :: 'a' :: 'l' :: 's' :: 'e' :: (HB.commentStr d last ++ rest) := by
        rw [List.append_assoc]
        exact skipWs_not_ws 'f' (by decide) (by decide) _
      simp only [parseVal.eq_def, hsk]
      rfl
  | .num n => by
    intro hg d hd last ind out hs fuel hf rest
    rw [HB.stringifyVal] at hs
    injection hs with hs
    subst hs
    obtain ⟨ch, ct, hC, hCd, hCm⟩ := commentStr_head d last
    have hir : ∃ c0 cs0, intRepr n = c0 :: cs0 ∧ (c0.isDigit = true ∨ c0 = '-') := by
      by_cases hneg : n < 0
      · exact ⟨'-', natRepr n.natAbs, by rw [intRepr, if_pos hneg], .inr rfl⟩
      · obtain ⟨hdg, hne⟩ := natRepr_digits n.toNat
        obtain ⟨c0, cs0, hcons⟩ : ∃ c0 cs0, natRepr n.toNat = c0 :: cs0 := by
          cases hrepr : natRepr n.toNat with
          | nil => exact absurd hrepr hne
          | cons c0 cs0 => exact ⟨c0, cs0, rfl⟩
        refine ⟨c0, cs0, by rw [intRepr, if_neg hneg]; exact hcons, .inl ?_⟩
        exact hdg c0 (by rw [hcons]; exact List.mem_cons_self _ _)
    obtain ⟨c0, cs0, hcons, hc0⟩ := hir
    have hn : c0 ≠ 'n' := by
      rcases hc0 with h | h
      · exact not_eq_of_isDigit h 'n' (by decide)
      · subst h; decide
    have ht : c0 ≠ 't' := by
      rcases hc0 with h | h
      · exact not_eq_of_isDigit h 't' (by decide)
      · subst h; decide
    have hfc : c0 ≠ 'f' := by
      rcases hc0 with h | h
      · exact not_eq_of_isDigit h 'f' (by decide)
      · subst h; decide
    have hq : ¬(c0 = qC) := by
      rcases hc0 with h | h
      · exact not_eq_of_isDigit h qC (by decide)
      · subst h; decide
    have hlb : ¬(c0 = '[') := by
      rcases hc0 with h | h
      · exact not_eq_of_isDigit h '[' (by decide)
      · subst h; decide
    have hob : ¬(c0 = '\x7b') := by
      rcases hc0 with h | h
      · exact not_eq_of_isDigit h '\x7b' (by decide)
      · subst h; decide
    have hws : isWsChar c0 = false := by
      rcases hc0 with h | h
      · exact isDigit_not_ws h
      · subst h; decide
    have hsl : c0 ≠ '/' := by
      rcases hc0 with h | h
      · exact not_eq_of_isDigit h '/' (by decide)
      · subst h; decide
    have hsk : skipWs ((intRepr n ++ HB.commentStr d last) ++ rest) =
        c0 :: (cs0 ++ (HB.commentStr d last ++ rest)) := by
      rw [List.append_assoc, hcons, List.cons_append]
      exact skipWs_not_ws c0 hws hsl _
    rw [parseVal_step hsk hn ht hfc fuel, if_neg hq, if_neg hlb, if_neg hob]
    have hnum : parseNum (intRepr n ++ (HB.commentStr d last ++ rest)) =
        some (n, HB.commentStr d last ++ rest) := by
      refine parseNum_intRepr n _ ?_
      intro c hc
      rw [hC] at hc
      simp at hc
      subst hc
      exact hCd
    rw [hcons] at hnum
    simp only [List.cons_append] at hnum
    rw [hnum, omap_some]
    rfl
  | .str s => by
    intro hg d hd last ind out hs fuel hf rest
    rw [HB.stringifyVal] at hs
    injection hs with hs
    subst hs
    have hsk : skipWs ((qC :: s ++ qC :: HB.commentStr d last) ++ rest) =
        qC :: ((s ++ qC :: HB.commentStr d last) ++ rest) := by
      exact skipWs_not_ws qC (by decide) (by decide) _
    rw [parseVal_step hsk (by decide) (by decide) (by decide) fuel, if_pos rfl]
    have harr : (s ++ qC :: HB.commentStr d last) ++ rest =
        s ++ qC :: (HB.commentStr d last ++ rest) := by simp
    rw [harr, parseStrBody_safe hg (HB.commentStr d last ++ rest), omap_some]
    rfl
  | .arr [] => by
    intro hg d hd last ind out hs fuel hf rest
    rw [HB.stringifyVal, bind_eq_ok] at hs
    obtain ⟨parts, hparts, hout⟩ := hs
    rw [HB.stringifyElems] at hparts
    injection hparts with hparts
    subst hparts
    injection hout with hout
    subst hout
    have hsk : skipWs (('[' :: '\n' :: [] ++ tabs ind ++ ']' :: HB.commentStr d last)
        ++ rest) = '[' :: ('\n' :: (tabs ind ++ ']' :: (HB.commentStr d last ++ rest))) := by
      have hx : ('[' :: '\n' :: [] ++ tabs ind ++ ']' :: HB.commentStr d last) ++ rest =
          '[' :: ('\n' :: (tabs ind ++ ']' :: (HB.commentStr d last ++ rest))) := by simp
      rw [hx]
      exact skipWs_not_ws '[' (by decide) (by decide) _
    rw [parseVal_step hsk (by decide) (by decide) (by decide) fuel,
      if_neg (by decide), if_pos rfl]
    have hsk2 : skipWs ('\n' :: (tabs ind ++ ']' :: (HB.commentStr d last ++ rest))) =
        ']' :: (HB.commentStr d last ++ rest) := by
      rw [skipWs_cons_ws '\n' (by decide), skipWs_tabs]
      exact skipWs_not_ws ']' (by decide) (by decide) _
    rw [hsk2]
    rfl
  | .arr (p :: xs2) => by
    intro hg d hd last ind out hs fuel hf rest
    rw [HB.stringifyVal, bind_eq_ok] at hs
    obtain ⟨parts, hparts, hout⟩ := hs
    injection hout with hout
    subst hout
    obtain ⟨c0, q, hpp, hhead⟩ := serElems_strip hg (by simp) hparts
    have hsk : skipWs (('[' :: '\n' :: parts ++ tabs ind ++ ']' :: HB.commentStr d last)
        ++ rest) =
        '[' :: ('\n' :: (parts ++ (tabs ind ++ ']' :: (HB.commentStr d last ++ rest)))) := by
      have hx : ('[' :: '\n' :: parts ++ tabs ind ++ ']' :: HB.commentStr d last) ++ rest =
          '[' :: ('\n' :: (parts ++ (tabs ind ++ ']' :: (HB.commentStr d last ++ rest)))) := by
        simp
      rw [hx]
      exact skipWs_not_ws '[' (by decide) (by decide) _
    rw [parseVal_step hsk (by decide) (by decide) (by decide) fuel,
      if_neg (by decide), if_pos rfl]
    have hsk2 : skipWs ('\n' :: (parts ++ (tabs ind ++ ']' ::
        (HB.commentStr d last ++ rest)))) =
        c0 :: (q ++ (tabs ind ++ ']' :: (HB.commentStr d last ++ rest))) := by
      rw [skipWs_cons_ws '\n' (by decide), hpp, List.append_assoc, skipWs_tabs,
        List.cons_append]
      exact skipWs_not_ws c0 (valHead_not_ws hhead) (valHead_ne_slash hhead) _
    rw [hsk2]
    split
    · rename_i r2 heq
      exact absurd (List.head_eq_of_cons_eq heq) (valHead_ne_rbrack hhead)
    · obtain ⟨g, rfl⟩ : ∃ g, fuel = g + 1 := by
        have h1 := FPs_pos (p :: xs2)
        have h2 : FV (.arr (p :: xs2)) = 1 + FPs (p :: xs2) := rfl
        exact ⟨fuel - 1, by omega⟩
      have hcg : skipWs (c0 :: (q ++ (tabs ind ++ ']' ::
          (HB.commentStr d last ++ rest)))) =
          skipWs (parts ++ (tabs ind ++ ']' :: (HB.commentStr d last ++ rest))) := by
        rw [hpp, List.append_assoc, skipWs_tabs, List.cons_append]
      rw [parseElemsLoop_congr hcg (g + 1)]
      have hfp : FPs (p :: xs2) ≤ g + 1 := by
        have h2 : FV (.arr (p :: xs2)) = 1 + FPs (p :: xs2) := rfl
        omega
      have hre := rt_elems (p :: xs2) hg (by simp) (ind + 1) parts hparts g hfp
        ind (HB.commentStr d last ++ rest)
      have hx2 : parts ++ (tabs ind ++ ']' :: (HB.commentStr d last ++ rest)) =
          parts ++ tabs ind ++ ']' :: (HB.commentStr d last ++ rest) := by simp
      rw [hx2, hre, omap_some]
      rfl
  | .obj [] => by
    intro hg d hd last ind out hs fuel hf rest
    rw [HB.stringifyVal, bind_eq_ok] at hs
    obtain ⟨parts, hparts, hout⟩ := hs
    rw [HB.stringifyMembers] at hparts
    injection hparts with hparts
    subst hparts
    injection hout with hout
    subst hout
    have hsk : skipWs (('\x7b' :: '\n' :: [] ++ tabs ind ++ '\x7d' ::
        HB.commentStr d last) ++ rest) =
        '\x7b' :: ('\n' :: (tabs ind ++ '\x7d' :: (HB.commentStr d last ++ rest))) := by
      have hx : ('\x7b' :: '\n' :: [] ++ tabs ind ++ '\x7d' :: HB.commentStr d last)
          ++ rest =
          '\x7b' :: ('\n' :: (tabs ind ++ '\x7d' :: (HB.commentStr d last ++ rest))) := by
        simp
      rw [hx]
      exact skipWs_not_ws '\x7b' (by decide) (by decide) _
    rw [parseVal_step hsk (by decide) (by decide) (by decide) fuel,
      if_neg (by decide), if_neg (by decide), if_pos rfl]
    have hsk2 : skipWs ('\n' :: (tabs ind ++ '\x7d' :: (HB.commentStr d last ++ rest))) =
        '\x7d' :: (HB.commentStr d last ++ rest) := by
      rw [skipWs_cons_ws '\n' (by decide), skipWs_tabs]
      exact skipWs_not_ws '\x7d' (by decide) (by decide) _
    rw [hsk2]
    rfl
  | .obj (kv :: fs2) => by
    intro hg d hd last ind out hs fuel hf rest
    rw [HB.stringifyVal, bind_eq_ok] at hs
    obtain ⟨parts, hparts, hout⟩ := hs
    injection hout with hout
    subst hout
    obtain ⟨q, hpp⟩ := serMembers_strip (by simp) hparts
    have hsk : skipWs (('\x7b' :: '\n' :: parts ++ tabs ind ++ '\x7d' ::
        HB.commentStr d last) ++ rest) =
        '\x7b' :: ('\n' :: (parts ++ (tabs ind ++ '\x7d' ::
          (HB.commentStr d last ++ rest)))) := by
      have hx : ('\x7b' :: '\n' :: parts ++ tabs ind ++ '\x7d' ::
          HB.commentStr d last) ++ rest =
          '\x7b' :: ('\n' :: (parts ++ (tabs ind ++ '\x7d' ::
            (HB.commentStr d last ++ rest)))) := by
        simp
      rw [hx]
      exact skipWs_not_ws '\x7b' (by decide) (by decide) _
    rw [parseVal_step hsk (by decide) (by decide) (by decide) fuel,
      if_neg (by decide), if_neg (by decide), if_pos rfl]
    have hsk2 : skipWs ('\n' :: (parts ++ (tabs ind ++ '\x7d' ::
        (HB.commentStr d last ++ rest)))) =
        qC :: (q ++ (tabs ind ++ '\x7d' :: (HB.commentStr d last ++ rest))) := by
      rw [skipWs_cons_ws '\n' (by decide), hpp, List.append_assoc, skipWs_tabs,
        List.cons_append]
      exact skipWs_not_ws qC (by decide) (by decide) _
    rw [hsk2]
    split
    · rename_i r2 heq
      have : qC = '\x7d' := List.head_eq_of_cons_eq heq
      exact absurd this (by decide)
    · obtain ⟨g, rfl⟩ : ∃ g, fuel = g + 1 := by
        have h1 := FMs_pos (kv :: fs2)
        have h2 : FV (.obj (kv :: fs2)) = 1 + FMs (kv :: fs2) := rfl
        exact ⟨fuel - 1, by omega⟩
      have hcg : skipWs (qC :: (q ++ (tabs ind ++ '\x7d' ::
          (HB.commentStr d last ++ rest)))) =
          skipWs (parts ++ (tabs ind ++ '\x7d' :: (HB.commentStr d last ++ rest))) := by
        rw [hpp, List.append_assoc, skipWs_tabs, List.cons_append]
      rw [parseMembersLoop_congr hcg (g + 1)]
      have hfp : FMs (kv :: fs2) ≤ g + 1 := by
        have h2 : FV (.obj (kv :: fs2)) = 1 + FMs (kv :: fs2) := rfl
        omega
      have hre := rt_members (kv :: fs2) hg (by simp) (ind + 1) parts hparts g hfp
        ind (HB.commentStr d last ++ rest)
      have hx2 : parts ++ (tabs ind ++ '\x7d' :: (HB.commentStr d last ++ rest)) =
          parts ++ tabs ind ++ '\x7d' :: (HB.commentStr d last ++ rest) := by simp
      rw [hx2, hre, omap_some]
      rfl

/-- Serialize-then-parse round trip, pair level. -/
theorem rt_pair : ∀ (p : JSVal), goodPair p = true →
    ∀ (last : Bool) (ind : Nat) (out : Str), HB.stringifyJsonc p last ind = .ok out →
    ∀ (fuel : Nat), FP p ≤ fuel + 1 →
    ∀ (rest : Str), parseVal (fuel + 1) (out ++ rest) =
      some (erasePair p, pairComment p last ++ rest)
  | .arr (v :: d :: rest2) => by
    intro hg last ind out hs fuel hf rest
    cases rest2 with
    | nil =>
      simp [goodPair] at hg
      exact rt_val v hg.1 d hg.2 last ind out hs fuel hf rest
    | cons e rest3 => simp [goodPair] at hg
  | .arr [] => by intro hg; simp [goodPair] at hg
  | .arr [v] => by intro hg; simp [goodPair] at hg
  | .undef => by intro hg; simp [goodPair] at hg
  | .null => by intro hg; simp [goodPair] at hg
  | .bool b => by intro hg; simp [goodPair] at hg
  | .num n => by intro hg; simp [goodPair] at hg
  | .str s => by intro hg; simp [goodPair] at hg
  | .obj fs => by intro hg; simp [goodPair] at hg

/-- Serialize-then-parse round trip for a nonempty element list: the loop
recovers the erasures and leaves the text after the closing bracket. -/
theorem rt_elems : ∀ (xs : List JSVal), goodPairs xs = true → xs ≠ [] →
    ∀ (ind : Nat) (parts : Str), HB.stringifyElems xs ind = .ok parts →
    ∀ (fuel : Nat), FPs xs ≤ fuel + 1 →
    ∀ (m : Nat) (tail : Str),
      parseElemsLoop (fuel + 1) (parts ++ tabs m ++ ']' :: tail) =
        some (erasePairs xs, tail)
  | [] => by intro _ hne; exact absurd rfl hne
  | [p] => by
    intro hg _ ind parts hp fuel hfu m tail
    have hgp : goodPair p = true := by
      simp [goodPairs] at hg
      exact hg
    rw [HB.stringifyElems, bind_eq_ok] at hp
    obtain ⟨sp, hsp, hout⟩ := hp
    injection hout with hout
    subst hout
    obtain ⟨g, rfl⟩ : ∃ g, fuel = g + 1 := by
      have h1 := FP_pos p
      have h2 : FPs [p] = 1 + max (FP p) (FPs []) := rfl
      exact ⟨fuel - 1, by omega⟩
    obtain ⟨v0, d0, hp0, hgv, hgd, hpc⟩ := goodPair_shape hgp
    have hfp : FP p ≤ g + 1 := by
      have h2 : FPs [p] = 1 + max (FP p) (FPs []) := rfl
      have h3 : FP p ≤ max (FP p) (FPs []) := Nat.le_max_left _ _
      omega
    rw [parseElemsLoop_succ]
    have hcg : skipWs ((tabs ind ++ sp) ++ tabs m ++ ']' :: tail) =
        skipWs (sp ++ (tabs m ++ ']' :: tail)) := by
      simp only [List.append_assoc]
      rw [skipWs_tabs]
    rw [parseVal_congr hcg (g + 1)]
    rw [rt_pair p hgp true ind sp hsp g hfp (tabs m ++ ']' :: tail)]
    have hsk : skipWs (pairComment p true ++ (tabs m ++ ']' :: tail)) =
        ']' :: tail := by
      rw [hpc true]
      have h1 : HB.commentStr d0 true = commentNl d0 := rfl
      rw [h1, skipWs_commentNl hgd, skipWs_tabs]
      exact skipWs_not_ws ']' (by decide) (by decide) _
    simp only [obind_some, hsk]
    rfl
  | p :: p2 :: xs2 => by
    intro hg _ ind parts hp fuel hfu m tail
    have hgp : goodPair p = true := by
      simp [goodPairs] at hg
      exact hg.1
    have hgr : goodPairs (p2 :: xs2) = true := by
      simp [goodPairs] at hg ⊢
      exact hg.2
    rw [HB.stringifyElems, bind_eq_ok] at hp
    obtain ⟨sp, hsp, hp2⟩ := hp
    rw [bind_eq_ok] at hp2
    obtain ⟨tl, htl, hout⟩ := hp2
    injection hout with hout
    subst hout
    obtain ⟨g, rfl⟩ : ∃ g, fuel = g + 1 := by
      have h1 := FPs_pos (p2 :: xs2)
      have h2 : FPs (p :: p2 :: xs2) = 1 + max (FP p) (FPs (p2 :: xs2)) := rfl
      exact ⟨fuel - 1, by omega⟩
    obtain ⟨v0, d0, hp0, hgv, hgd, hpc⟩ := goodPair_shape hgp
    have hfp : FP p ≤ g + 1 := by
      have h2 : FPs (p :: p2 :: xs2) = 1 + max (FP p) (FPs (p2 :: xs2)) := rfl
      have h3 : FP p ≤ max (FP p) (FPs (p2 :: xs2)) := Nat.le_max_left _ _
      omega
    have hfr : FPs (p2 :: xs2) ≤ g + 1 := by
      have h2 : FPs (p :: p2 :: xs2) = 1 + max (FP p) (FPs (p2 :: xs2)) := rfl
      have h3 : FPs (p2 :: xs2) ≤ max (FP p) (FPs (p2 :: xs2)) := Nat.le_max_right _ _
      omega
    rw [parseElemsLoop_succ]
    have hcg : skipWs (((tabs ind ++ sp) ++ tl) ++ tabs m ++ ']' :: tail) =
        skipWs (sp ++ (tl ++ (tabs m ++ ']' :: tail)))    := by
      simp only [List.append_assoc]
      rw [skipWs_tabs]
    rw [parseVal_congr hcg (g + 1)]
    rw [rt_pair p hgp false ind sp hsp g hfp (tl ++ (tabs m ++ ']' :: tail))]
    have hsk : skipWs (pairComment p false ++ (tl ++ (tabs m ++ ']' :: tail))) =
        ',' :: (commentNl d0 ++ (tl ++ (tabs m ++ ']' :: tail))) := by
      rw [hpc false]
      have h1 : HB.commentStr d0 false =
          ',' :: commentNl d0 := rfl
      rw [h1, List.cons_append]
      exact skipWs_not_ws ',' (by decide) (by decide) _
    simp only [obind_some, hsk]
    have hcg2 : skipWs (commentNl d0 ++ (tl ++ (tabs m ++ ']' :: tail))) =
        skipWs (tl ++ tabs m ++ ']' :: tail) := by
      rw [skipWs_commentNl hgd]
      simp only [List.append_assoc]
    rw [parseElemsLoop_congr hcg2 (g + 1)]
    rw [rt_elems (p2 :: xs2) hgr (by simp) ind tl htl g hfr m tail]
    rfl

/-- Serialize-then-parse round trip for a nonempty member list. -/
theorem rt_members : ∀ (fs : List (Str × JSVal)), goodMembers fs = true → fs ≠ [] →
    ∀ (ind : Nat) (parts : Str), HB.stringifyMembers fs ind = .ok parts →
    ∀ (fuel : Nat), FMs fs ≤ fuel + 1 →
    ∀ (m : Nat) (tail : Str),
      parseMembersLoop (fuel + 1) (parts ++ tabs m ++ '\x7d' :: tail) =
        some (eraseMembers fs, tail)
  | [] => by intro _ hne; exact absurd rfl hne
  | [(k, v)] => by
    intro hg _ ind parts hp fuel hfu m tail
    have hgk : safeStr k = true := by
      simp [goodMembers] at hg
      exact hg.1
    have hgv : goodPair v = true := by
      simp [goodMembers] at hg
      exact hg.2
    rw [HB.stringifyMembers, bind_eq_ok] at hp
    obtain ⟨sv, hsv, hout⟩ := hp
    injection hout with hout
    subst hout
    obtain ⟨g, rfl⟩ : ∃ g, fuel = g + 1 := by
      have h1 := FP_pos v
      have h2 : FMs [(k, v)] = 1 + max (FP v) (FMs []) := rfl
      have h3 : FP v ≤ max (FP v) (FMs []) := Nat.le_max_left _ _
      exact ⟨fuel - 1, by omega⟩
    obtain ⟨v0, d0, hp0, hgv0, hgd, hpc⟩ := goodPair_shape hgv
    have hfp : FP v ≤ g + 1 := by
      have h2 : FMs [(k, v)] = 1 + max (FP v) (FMs []) := rfl
      have h3 : FP v ≤ max (FP v) (FMs []) := Nat.le_max_left _ _
      omega
    have hsk0 : skipWs ((tabs ind ++ qC :: k ++ qC :: ':' :: ' ' :: sv) ++
        tabs m ++ '\x7d' :: tail) =
        qC :: ((k ++ qC :: ':' :: ' ' :: sv) ++ (tabs m ++ '\x7d' :: tail)) := by
      have hx : (tabs ind ++ qC :: k ++ qC :: ':' :: ' ' :: sv) ++
          tabs m ++ '\x7d' :: tail =
          tabs ind ++ (qC :: ((k ++ qC :: ':' :: ' ' :: sv) ++
            (tabs m ++ '\x7d' :: tail))) := by
        simp
      rw [hx, skipWs_tabs]
      exact skipWs_not_ws qC (by decide) (by decide) _
    rw [parseMembersLoop_cons (g + 1) hsk0, if_pos rfl]
    have hx2 : (k ++ qC :: ':' :: ' ' :: sv) ++ (tabs m ++ '\x7d' :: tail) =
        k ++ qC :: (':' :: ' ' :: (sv ++ (tabs m ++ '\x7d' :: tail))) := by
      simp
    rw [hx2, parseStrBody_safe hgk]
    have hsk1 : skipWs (':' :: ' ' :: (sv ++ (tabs m ++ '\x7d' :: tail))) =
        ':' :: (' ' :: (sv ++ (tabs m ++ '\x7d' :: tail))) :=
      skipWs_not_ws ':' (by decide) (by decide) _
    simp only [obind_some, hsk1]
    have hcg : skipWs (' ' :: (sv ++ (tabs m ++ '\x7d' :: tail))) =
        skipWs (sv ++ (tabs m ++ '\x7d' :: tail)) :=
      skipWs_cons_ws ' ' (by decide) _
    rw [parseVal_congr hcg (g + 1)]
    rw [rt_pair v hgv true ind sv hsv g hfp (tabs m ++ '\x7d' :: tail)]
    have hsk2 : skipWs (pairComment v true ++ (tabs m ++ '\x7d' :: tail)) =
        '\x7d' :: tail := by
      rw [hpc true]
      have h1 : HB.commentStr d0 true = commentNl d0 := rfl
      rw [h1, skipWs_commentNl hgd, skipWs_tabs]
      exact skipWs_not_ws '\x7d' (by decide) (by decide) _
    simp only [obind_some, hsk2]
    rfl
  | (k, v) :: kv2 :: fs2 => by
    intro hg _ ind parts hp fuel hfu m tail
    have hgk : safeStr k = true := by
      simp [goodMembers] at hg
      exact hg.1.1
    have hgv : goodPair v = true := by
      simp [goodMembers] at hg
      exact hg.1.2
    have hgr : goodMembers (kv2 :: fs2) = true := by
      simp [goodMembers] at hg ⊢
      exact hg.2
    rw [HB.stringifyMembers, bind_eq_ok] at hp
    obtain ⟨sv, hsv, hp2⟩ := hp
    rw [bind_eq_ok] at hp2
    obtain ⟨tl, htl, hout⟩ := hp2
    injection hout with hout
    subst hout
    obtain ⟨g, rfl⟩ : ∃ g, fuel = g + 1 := by
      have h1 := FMs_pos (kv2 :: fs2)
      have h2 : FMs ((k, v) :: kv2 :: fs2) = 1 + max (FP v) (FMs (kv2 :: fs2)) := rfl
      exact ⟨fuel - 1, by omega⟩
    obtain ⟨v0, d0, hp0, hgv0, hgd, hpc⟩ := goodPair_shape hgv
    have hfp : FP v ≤ g + 1 := by
      have h2 : FMs ((k, v) :: kv2 :: fs2) = 1 + max (FP v) (FMs (kv2 :: fs2)) := rfl
      have h3 : FP v ≤ max (FP v) (FMs (kv2 :: fs2)) := Nat.le_max_left _ _
      omega
    have hfr : FMs (kv2 :: fs2) ≤ g + 1 := by
      have h2 : FMs ((k, v) :: kv2 :: fs2) = 1 + max (FP v) (FMs (kv2 :: fs2)) := rfl
      have h3 : FMs (kv2 :: fs2) ≤ max (FP v) (FMs (kv2 :: fs2)) := Nat.le_max_right _ _
      omega
    have hsk0 : skipWs (((tabs ind ++ qC :: k ++ qC :: ':' :: ' ' :: sv) ++ tl) ++
        tabs m ++ '\x7d' :: tail) =
        qC :: ((k ++ qC :: ':' :: ' ' :: sv) ++ (tl ++ (tabs m ++ '\x7d' :: tail))) := by
      have hx : ((tabs ind ++ qC :: k ++ qC :: ':' :: ' ' :: sv) ++ tl) ++
          tabs m ++ '\x7d' :: tail =
          tabs ind ++ (qC :: ((k ++ qC :: ':' :: ' ' :: sv) ++
            (tl ++ (tabs m ++ '\x7d' :: tail)))) := by
        simp
      rw [hx, skipWs_tabs]
      exact skipWs_not_ws qC (by decide) (by decide) _
    rw [parseMembersLoop_cons (g + 1) hsk0, if_pos rfl]
    have hx2 : (k ++ qC :: ':' :: ' ' :: sv) ++ (tl ++ (tabs m ++ '\x7d' :: tail)) =
        k ++ qC :: (':' :: ' ' :: (sv ++ (tl ++ (tabs m ++ '\x7d' :: tail)))) := by
      simp
    rw [hx2, parseStrBody_safe hgk]
    have hsk1 : skipWs (':' :: ' ' :: (sv ++ (tl ++ (tabs m ++ '\x7d' :: tail)))) =
        ':' :: (' ' :: (sv ++ (tl ++ (tabs m ++ '\x7d' :: tail)))) :=
      skipWs_not_ws ':' (by decide) (by decide) _
    simp only [obind_some, hsk1]
    have hcg : skipWs (' ' :: (sv ++ (tl ++ (tabs m ++ '\x7d' :: tail)))) =
        skipWs (sv ++ (tl ++ (tabs m ++ '\x7d' :: tail))) :=
      skipWs_cons_ws ' ' (by decide) _
    rw [parseVal_congr hcg (g + 1)]
    rw [rt_pair v hgv false ind sv hsv g hfp (tl ++ (tabs m ++ '\x7d' :: tail))]
    have hsk2 : skipWs (pairComment v false ++ (tl ++ (tabs m ++ '\x7d' :: tail))) =
        ',' :: (commentNl d0 ++ (tl ++ (tabs m ++ '\x7d' :: tail))) := by
      rw [hpc false]
      have h1 : HB.commentStr d0 false = ',' :: commentNl d0 := rfl
      rw [h1, List.cons_append]
      exact skipWs_not_ws ',' (by decide) (by decide) _
    simp only [obind_some, hsk2]
    have hcg2 : skipWs (commentNl d0 ++ (tl ++ (tabs m ++ '\x7d' :: tail))) =
        skipWs (tl ++ tabs m ++ '\x7d' :: tail) := by
      rw [skipWs_commentNl hgd]
      simp only [List.append_assoc]
    rw [parseMembersLoop_congr hcg2 (g + 1)]
    rw [rt_members (kv2 :: fs2) hgr (by simp) ind tl htl g hfr m tail]
    rfl

end

mutual

/-- The fuel a serialized good value needs is within one of its length. -/
theorem szVal : ∀ (v : JSVal), goodVal v = true →
    ∀ (C : Str) (ind : Nat) (out : Str),
      HB.stringifyVal v C ind = .ok out → FV v ≤ out.length + 1
  | .undef => by
    intro _ C ind out _
    show 1 ≤ out.length + 1
    omega
  | .null => by
    intro _ C ind out _
    show 1 ≤ out.length + 1
    omega
  | .bool b => by
    intro _ C ind out _
    show 1 ≤ out.length + 1
    omega
  | .num n => by
    intro _ C ind out _
    show 1 ≤ out.length + 1
    omega
  | .str s => by
    intro _ C ind out _
    show 1 ≤ out.length + 1
    omega
  | .arr [] => by
    intro _ C ind out hs
    rw [HB.stringifyVal, bind_eq_ok] at hs
    obtain ⟨parts, hparts, hout⟩ := hs
    rw [HB.stringifyElems] at hparts
    injection hparts with hparts
    subst hparts
    injection hout with hout
    subst hout
    show 1 + FPs [] ≤ _ + 1
    have h1 : FPs [] = 1 := rfl
    simp only [List.length_cons, List.length_append]
    omega
  | .arr (p :: xs2) => by
    intro hg C ind out hs
    rw [HB.stringifyVal, bind_eq_ok] at hs
    obtain ⟨parts, hparts, hout⟩ := hs
    injection hout with hout
    subst hout
    have h1 := szElems (p :: xs2) hg (ind + 1) parts hparts
    show 1 + FPs (p :: xs2) ≤ _ + 1
    simp only [List.length_cons, List.length_append]
    omega
  | .obj [] => by
    intro _ C ind out hs
    rw [HB.stringifyVal, bind_eq_ok] at hs
    obtain ⟨parts, hparts, hout⟩ := hs
    rw [HB.stringifyMembers] at hparts
    injection hparts with hparts
    subst hparts
    injection hout with hout
    subst hout
    show 1 + FMs [] ≤ _ + 1
    have h1 : FMs [] = 1 := rfl
    simp only [List.length_cons, List.length_append]
    omega
  | .obj (kv :: fs2) => by
    intro hg C ind out hs
    rw [HB.stringifyVal, bind_eq_ok] at hs
    obtain ⟨parts, hparts, hout⟩ := hs
    injection hout with hout
    subst hout
    have h1 := szMembers (kv :: fs2) hg (ind + 1) parts hparts
    show 1 + FMs (kv :: fs2) ≤ _ + 1
    simp only [List.length_cons, List.length_append]
    omega

/-- The fuel a serialized good pair needs is within one of its length. -/
theorem szPair : ∀ (p : JSVal), goodPair p = true →
    ∀ (last : Bool) (ind : Nat) (out : Str),
      HB.stringifyJsonc p last ind = .ok out → FP p ≤ out.length + 1
  | .arr (v :: d :: rest2) => by
    intro hg last ind out hs
    cases rest2 with
    | nil =>
      simp [goodPair] at hg
      exact szVal v hg.1 (HB.commentStr d last) ind out hs
    | cons e rest3 => simp [goodPair] at hg
  | .arr [] => by
    intro _ _ _ out _
    show 1 ≤ out.length + 1
    omega
  | .arr [v] => by
    intro hg _ _ out _
    simp [goodPair] at hg
  | .undef => by
    intro _ _ _ out _
    show 1 ≤ out.length + 1
    omega
  | .null => by
    intro _ _ _ out _
    show 1 ≤ out.length + 1
    omega
  | .bool b => by
    intro _ _ _ out _
    show 1 ≤ out.length + 1
    omega
  | .num n => by
    intro _ _ _ out _
    show 1 ≤ out.length + 1
    omega
  | .str s => by
    intro _ _ _ out _
    show 1 ≤ out.length + 1
    omega
  | .obj fs => by
    intro _ _ _ out _
    show 1 ≤ out.length + 1
    omega

/-- The fuel a serialized element list needs is within two of its length. -/
theorem szElems : ∀ (xs : List JSVal), goodPairs xs = true →
    ∀ (ind : Nat) (parts : Str),
      HB.stringifyElems xs ind = .ok parts → FPs xs ≤ parts.length + 2
  | [] => by
    intro _ ind parts _
    show 1 ≤ parts.length + 2
    omega
  | [p] => by
    intro hg ind parts hp
    have hgp : goodPair p = true := by
      simp [goodPairs] at hg
      exact hg
    rw [HB.stringifyElems, bind_eq_ok] at hp
    obtain ⟨sp, hsp, hout⟩ := hp
    injection hout with hout
    subst hout
    have h1 := szPair p hgp true ind sp hsp
    have h2 : FPs [] = 1 := rfl
    show 1 + max (FP p) (FPs []) ≤ _ + 2
    have h3 : max (FP p) (FPs []) ≤ sp.length + 1 := by
      refine Nat.max_le.mpr ⟨h1, ?_⟩
      omega
    simp only [List.length_append]
    omega
  | p :: p2 :: xs2 => by
    intro hg ind parts hp
    have hgp : goodPair p = true := by
      simp [goodPairs] at hg
      exact hg.1
    have hgr : goodPairs (p2 :: xs2) = true := by
      simp [goodPairs] at hg ⊢
      exact hg.2
    rw [HB.stringifyElems, bind_eq_ok] at hp
    obtain ⟨sp, hsp, hp2⟩ := hp
    rw [bind_eq_ok] at hp2
    obtain ⟨tl, htl, hout⟩ := hp2
    injection hout with hout
    subst hout
    have h1 := szPair p hgp false ind sp hsp
    have h2 := szElems (p2 :: xs2) hgr ind tl htl
    obtain ⟨c0, q0, hcons, _⟩ := serPair_head hgp hsp
    have hlen : 1 ≤ sp.length := by
      rw [hcons]
      simp
    show 1 + max (FP p) (FPs (p2 :: xs2)) ≤ _ + 2
    have h3 : max (FP p) (FPs (p2 :: xs2)) ≤ sp.length + tl.length + 1 := by
      refine Nat.max_le.mpr ⟨by omega, by omega⟩
    simp only [List.length_append]
    omega

/-- The fuel a serialized member list needs is within two of its length. -/
theorem szMembers : ∀ (fs : List (Str × JSVal)), goodMembers fs = true →
    ∀ (ind : Nat) (parts : Str),
      HB.stringifyMembers fs ind = .ok parts → FMs fs ≤ parts.length + 2
  | [] => by
    intro _ ind parts _
    show 1 ≤ parts.length + 2
    omega
  | [(k, v)] => by
    intro hg ind parts hp
    have hgv : goodPair v = true := by
      simp [goodMembers] at hg
      exact hg.2
    rw [HB.stringifyMembers, bind_eq_ok] at hp
    obtain ⟨sv, hsv, hout⟩ := hp
    injection hout with hout
    subst hout
    have h1 := szPair v hgv true ind sv hsv
    have h2 : FMs [] = 1 := rfl
    show 1 + max (FP v) (FMs []) ≤ _ + 2
    have h3 : max (FP v) (FMs []) ≤ sv.length + 1 := by
      refine Nat.max_le.mpr ⟨h1, ?_⟩
      omega
    simp only [List.length_append, List.length_cons]
    omega
  | (k, v) :: kv2 :: fs2 => by
    intro hg ind parts hp
    have hgv : goodPair v = true := by
      simp [goodMembers] at hg
      exact hg.1.2
    have hgr : goodMembers (kv2 :: fs2) = true := by
      simp [goodMembers] at hg ⊢
      exact hg.2
    rw [HB.stringifyMembers, bind_eq_ok] at hp
    obtain ⟨sv, hsv, hp2⟩ := hp
    rw [bind_eq_ok] at hp2
    obtain ⟨tl, htl, hout⟩ := hp2
    injection hout with hout
    subst hout
    have h1 := szPair v hgv false ind sv hsv
    have h2 := szMembers (kv2 :: fs2) hgr ind tl htl
    show 1 + max (FP v) (FMs (kv2 :: fs2)) ≤ _ + 2
    have h3 : max (FP v) (FMs (kv2 :: fs2)) ≤ sv.length + tl.length + 2 := by
      refine Nat.max_le.mpr ⟨by omega, by omega⟩
    simp only [List.length_append, List.length_cons]
    omega

end

/-- A rule compiling to a small object example made of safe strings. -/
def rtRule : VRule :=
  .prim (some .object) none none none
    (some (.inl [(S "a",
      .prim (some .string) (some (.json (.str (S "hi")))) none none none none none)]))
    none none

/-- The compiled example of `rtRule`. -/
def rtCompiled : JSVal :=
  match HB.parseRuleToJsonc rtRule with
  | .ok v => v
  | .error _ => (.undef)

/-- The serialized annotated JSON of `rtCompiled`. -/
def rtText : Str :=
  match HB.stringifyJsonc rtCompiled true 0 with
  | .ok s => s
  | .error _ => []

/-- C8 (corrected): for a compiled example value that is a well-formed
annotated pair — its strings and keys free of characters needing JSON
escaping, its descriptions free of newlines — serializing with
`_stringifyJsonc` and then parsing the text as JSON with `//` line
comments ignored recovers exactly the annotation-erased value.  (The
unrestricted claim is refuted by `c8_counterexample`: the serializer
never escapes, so a compiled string containing a quote breaks the
round trip.) -/
theorem c8_roundtrip (r : VRule) (v : JSVal) (out : Str)
    (_hc : HB.parseRuleToJsonc r = .ok v) (hg : goodPair v = true)
    (hs : HB.stringifyJsonc v true 0 = .ok out) :
    parseJsonText out = some (erasePair v) := by
  obtain ⟨v0, d0, hp0, hgv, hgd, hpc⟩ := goodPair_shape hg
  have hsz : FP v ≤ out.length + 1 := szPair v hg true 0 out hs
  have hrt := rt_pair v hg true 0 out hs out.length hsz []
  simp only [List.append_nil] at hrt
  have hskip : skipWs (pairComment v true) = [] := by
    rw [hpc true]
    have h1 : HB.commentStr d0 true = commentNl d0 := rfl
    rw [h1]
    have h2 := skipWs_commentNl hgd ([] : Str)
    rw [List.append_nil] at h2
    rw [h2]
    rfl
  rw [parseJsonText, hrt]
  simp only [hskip]
  rfl

/-- C8 witness: the concrete rule `rtRule` compiles, its compiled pair is
well formed, it serializes, and the serialized text parses back to the
erased value. -/
theorem c8_roundtrip_witness :
    HB.parseRuleToJsonc rtRule = .ok rtCompiled ∧ goodPair rtCompiled = true ∧
    HB.stringifyJsonc rtCompiled true 0 = .ok rtText ∧
    parseJsonText rtText = some (erasePair rtCompiled) :=
  ⟨rfl, by decide, rfl, c8_roundtrip rtRule rtCompiled rtText rfl (by decide) rfl⟩

end PB
